import Mathlib

/-!
Verification development for the iterative eigensolver core in
`itensor/eigensolver.h` (power method, Davidson driver `complexDavidson`
with its real wrappers, the Ritz selector `findEig`, and the generalized
driver `nonOrthDavidson`).

Modelling conventions:
* `Real` is modelled by `ℚ` (exact arithmetic idealization of `double`);
  decimal literals such as `1E-12` are the exact rationals they denote.
* `Complex` is modelled by pairs `ℚ × ℚ` of real and imaginary part.
* Tensors are abstract: the tensor algebra is an external collaborator, so
  the drivers are parametrized by a `TensorOps` record providing the
  operations the source consumes (`+=`, scalar `*=`, `norm`, `BraKet`,
  elementwise `/=`, `mapElems`, `randomize`, dimension query).
* The dense eigensolver facade (`EigenValues`, `HermitianEigenvalues`,
  `GenEigenValues`, `ComplexEigenvalues`) is likewise external and is
  passed in as a `DenseSolvers` record of oracle functions.
* `Vector`/`Matrix` of the dense layer are total functions `Nat → ℚ` and
  `Nat → Nat → ℚ` with 1-based indexing exactly as in the source; the
  current dimension is passed separately where the source tracks it via
  `SubMatrix` views.  Entries the source leaves uninitialized (set to NAN)
  are modelled as `0`; no proved claim depends on reading them.
* Comparisons of a (nonnegative) Euclidean norm `√s` against a bound `e`
  are expressed square-root-free through the squares (`sqrtGt`, `cabsLt`).
-/

namespace Eigensolver

/-- Complex scalars: pairs `(re, im)` of rationals. -/
abbrev CQ := ℚ × ℚ

def cadd (a b : CQ) : CQ := (a.1 + b.1, a.2 + b.2)

def csub (a b : CQ) : CQ := (a.1 - b.1, a.2 - b.2)

def cmul (a b : CQ) : CQ := (a.1 * b.1 - a.2 * b.2, a.1 * b.2 + a.2 * b.1)

def cneg (a : CQ) : CQ := (-a.1, -a.2)

def cconj (a : CQ) : CQ := (a.1, -a.2)

/-- Squared modulus of a complex scalar. -/
def cnormSq (a : CQ) : ℚ := a.1 ^ 2 + a.2 ^ 2

/-- `|z| < e` for a complex scalar `z`, expressed without square roots:
`|z| < e ↔ 0 < e ∧ |z|² < e²`. -/
def cabsLt (z : CQ) (e : ℚ) : Prop := 0 < e ∧ cnormSq z < e ^ 2

instance (z : CQ) (e : ℚ) : Decidable (cabsLt z e) :=
  inferInstanceAs (Decidable (0 < e ∧ cnormSq z < e ^ 2))

/-- `√s > e` for a nonnegative radicand `s`, expressed without square roots:
`√s > e ↔ e < 0 ∨ e² < s`. -/
def sqrtGt (s e : ℚ) : Prop := e < 0 ∨ e ^ 2 < s

instance (s e : ℚ) : Decidable (sqrtGt s e) :=
  inferInstanceAs (Decidable (e < 0 ∨ e ^ 2 < s))

/-- The constant `Approx0 = 1E-12` of the source. -/
def approx0 : ℚ := 1 / 10 ^ 12

/-- The hard residual cutoff `1E-20` in the Davidson break test. -/
def tinyBreak : ℚ := 1 / 10 ^ 20

/-- The Gram–Schmidt breakdown threshold `1E-10`. -/
def gsEps : ℚ := 1 / 10 ^ 10

/-- Dense-layer vectors, 1-based as `Vector` in the source. -/
abbrev Vec := Nat → ℚ

/-- Dense-layer matrices, 1-based as `Matrix` in the source. -/
abbrev Mat := Nat → Nat → ℚ

def zeroVec : Vec := fun _ => 0

def zeroMat : Mat := fun _ _ => 0

/-- The index list `[1, …, n]`. -/
def oneTo (n : Nat) : List Nat := (List.range n).map (· + 1)

/-- `Σ_{i=1}^{n} f i`. -/
def sumOneTo (n : Nat) (f : Nat → ℚ) : ℚ := ((oneTo n).map f).sum

/-- Write `f i` into column `c`, rows `1..n` (`MatrixRef.Column(c) = v`). -/
def setMatCol (M : Mat) (c n : Nat) (f : Nat → ℚ) : Mat :=
  fun i j => if j = c ∧ 1 ≤ i ∧ i ≤ n then f i else M i j

/-- Write `f j` into row `r`, columns `1..n` (`MatrixRef.Row(r) = v`). -/
def setMatRow (M : Mat) (r n : Nat) (f : Nat → ℚ) : Mat :=
  fun i j => if i = r ∧ 1 ≤ j ∧ j ≤ n then f j else M i j

/-!  ### The Ritz selector `findEig`

Direct transcription of `findEig` (eigensolver.h, lines 219–256).  The
squared moduli `A2`, the running `(maxj, w)` of the seeding loop and the
`num` displacement passes over `(nmax, w)` are kept 1-based; the function
returns the 0-based `w - 1` exactly as the source does. -/

/-- `A2(ii) = sqr(DR(ii)) + sqr(DI(ii))`. -/
def findEigA2 (DR DI : Vec) : Vec := fun ii => (DR ii) ^ 2 + (DI ii) ^ 2

/-- The seeding loop `for(ii = 1..L) if(A2(ii) > maxj) { maxj = A2(ii); w = ii; }`
starting from `maxj = -1, w = -1`; processes indices `1..n` in order. -/
def seedAux (A2 : Vec) : Nat → ℚ × Int
  | 0 => (-1, -1)
  | n + 1 =>
    let p := seedAux A2 n
    if p.1 < A2 (n + 1) then (A2 (n + 1), ((n + 1 : Nat) : Int)) else p

/-- One displacement pass
`nmax = -1; for(ii = 1..L) if(A2(ii) > nmax ∧ A2(ii) < maxj) { nmax = A2(ii); w = ii; }`,
keeping the incoming `w` when no entry qualifies. -/
def dispAux (A2 : Vec) (maxj : ℚ) (w : Int) : Nat → ℚ × Int
  | 0 => (-1, w)
  | n + 1 =>
    let p := dispAux A2 maxj w n
    if p.1 < A2 (n + 1) ∧ A2 (n + 1) < maxj then (A2 (n + 1), ((n + 1 : Nat) : Int)) else p

/-- The state `(maxj, w)` after the seed and `num` displacement passes. -/
def findEigLoop (A2 : Vec) (L : Nat) : Nat → ℚ × Int
  | 0 => seedAux A2 L
  | num + 1 =>
    let p := findEigLoop A2 L num
    dispAux A2 p.1 p.2 L

/-- `findEig(num, DR, DI)`: 0-based index of the eigenvalue of `num`-th
largest modulus, by seeding and displacement as in the source. -/
def findEig (num L : Nat) (DR DI : Vec) : Int :=
  (findEigLoop (findEigA2 DR DI) L num).2 - 1

/-!  ### External interfaces -/

/-- Capability record for the external tensor algebra.  Real scalar
multiplication `x *= r` is embedded as `smul (r, 0) x`. -/
structure TensorOps (T : Type) where
  /-- `x += y` becomes `add x y`. -/
  add : T → T → T
  /-- scalar multiplication by a complex scalar -/
  smul : CQ → T → T
  /-- `x.norm()` under the exact-real idealization -/
  norm : T → ℚ
  /-- `BraKet(x, y) = ⟨x|y⟩` -/
  braket : T → T → CQ
  /-- elementwise `x /= d` becomes `divBy x d` -/
  divBy : T → T → T
  /-- `x.mapElems(f)` -/
  mapElems : (ℚ → ℚ) → T → T
  /-- deterministic oracle for `x.randomize()` -/
  randomize : T → T
  /-- `x.indices().dim()` -/
  dim : T → Nat

/-- The implicit operator: `product`, `size` and `diag` (a null diagonal is
`none`). -/
structure BigMatrix (T : Type) where
  product : T → T
  size : Nat
  diag : Option T

/-- Oracle record for the dense eigensolver facade; each routine receives
the current dimension of the projected matrix. -/
structure DenseSolvers where
  eigenValues : Nat → Mat → Vec × Mat
  hermitianEigenvalues : Nat → Mat → Mat → Vec × Mat × Mat
  genEigenValues : Nat → Mat → Vec × Vec × Mat × Mat
  complexEigenvalues : Nat → Mat → Mat → Vec × Vec × Mat × Mat

/-- The recognized options with their source defaults. -/
structure DavOpts where
  maxIter : Int := 2
  errGoal : ℚ := 1 / 10 ^ 4
  debugLevel : Int := -1
  minIter : Int := 1
  hermitian : Bool := true

/-- `DavidsonPrecond`: `f(x) = 1/(θ - x)`, returning `0` when `θ = x`. -/
def davidsonPrecond (theta x : ℚ) : ℚ := if theta = x then 0 else 1 / (theta - x)

/-!  ### Power method (eigensolver.h, lines 80–119) -/

/-- The deflation loop of `powerMethod`:
`for(j < t) v += (-eigs[j] * vecs[j] * BraKet(vecs[j], v))`.
Each inner product is taken against the current, partially deflated `v`. -/
def deflateSeq [Inhabited T] (ops : TensorOps T) (eigs : List ℚ) (vecs : List T)
    (t : Nat) (v : T) : T :=
  (List.range t).foldl
    (fun v j =>
      ops.add v (ops.smul (cmul (-(eigs.getD j 0), 0) (ops.braket (vecs.getD j default) v))
        (vecs.getD j default)))
    v

/-- The inner iteration of `powerMethod` for target `t`: at most `fuel`
steps of product, deflation, norm update and normalization, stopping as
soon as `|λ - λ_prev| < errgoal`; returns the final `(λ, v)`. -/
def pmInner [Inhabited T] (ops : TensorOps T) (A : BigMatrix T) (errgoal : ℚ)
    (eigs : List ℚ) (vecs : List T) (t : Nat) : Nat → T → ℚ → ℚ × T
  | 0, v, lam => (lam, v)
  | fuel + 1, v, lam =>
    let v1 := deflateSeq ops eigs vecs t (A.product v)
    let lam1 := ops.norm v1
    let v2 := ops.smul (1 / lam1, 0) v1
    if |lam1 - lam| < errgoal then (lam1, v2)
    else pmInner ops A errgoal eigs vecs t fuel v2 lam1

/-- `powerMethod(A, vecs, opts)`: deflated power iteration, `maxiter = 1000`
inner iterations per target; returns the eigenvalues and the mutated
`vecs`. -/
def powerMethod [Inhabited T] (ops : TensorOps T) (A : BigMatrix T)
    (vecs0 : List T) (opts : DavOpts) : List ℚ × List T :=
  let nget := vecs0.length
  (List.range nget).foldl
    (fun st t =>
      let eigs := st.1
      let vecs := st.2
      let v0 := vecs.getD t default
      let v0 := ops.smul (1 / ops.norm v0, 0) v0
      let r := pmInner ops A opts.errGoal eigs vecs t 1000 v0 (eigs.getD t 0)
      (eigs.set t r.1, vecs.set t r.2))
    (List.replicate nget 1000, vecs0)

/-- Claim-side variant of the deflation update, following the words
"v ← v − Σⱼ<t λⱼ·vecsⱼ·⟨vecsⱼ|v⟩": every inner product is taken against
the same incoming `v`. -/
def deflateSum [Inhabited T] (ops : TensorOps T) (eigs : List ℚ) (vecs : List T)
    (t : Nat) (v : T) : T :=
  (List.range t).foldl
    (fun acc j =>
      ops.add acc (ops.smul (cmul (-(eigs.getD j 0), 0) (ops.braket (vecs.getD j default) v))
        (vecs.getD j default)))
    v

/-- Claim-side inner iteration using the simultaneous deflation `deflateSum`. -/
def pmInnerClaim [Inhabited T] (ops : TensorOps T) (A : BigMatrix T) (errgoal : ℚ)
    (eigs : List ℚ) (vecs : List T) (t : Nat) : Nat → T → ℚ → ℚ × T
  | 0, v, lam => (lam, v)
  | fuel + 1, v, lam =>
    let v1 := deflateSum ops eigs vecs t (A.product v)
    let lam1 := ops.norm v1
    let v2 := ops.smul (1 / lam1, 0) v1
    if |lam1 - lam| < errgoal then (lam1, v2)
    else pmInnerClaim ops A errgoal eigs vecs t fuel v2 lam1

/-- Claim-side power method with the simultaneous (Σ-formula) deflation. -/
def powerMethodClaim [Inhabited T] (ops : TensorOps T) (A : BigMatrix T)
    (vecs0 : List T) (opts : DavOpts) : List ℚ × List T :=
  let nget := vecs0.length
  (List.range nget).foldl
    (fun st t =>
      let eigs := st.1
      let vecs := st.2
      let v0 := vecs.getD t default
      let v0 := ops.smul (1 / ops.norm v0, 0) v0
      let r := pmInnerClaim ops A opts.errGoal eigs vecs t 1000 v0 (eigs.getD t 0)
      (eigs.set t r.1, vecs.set t r.2))
    (List.replicate nget 1000, vecs0)

/-!  ### Residual assembly of `nonOrthDavidson` (lines 798–803)

The source writes, for `ii ≥ 2`:
```
q   = U(1,1)*AV[1];
q   = U(1,1)*(AV[1]-lambda*BV[1]);
for(int k = 2; k <= ii; ++k)
    { q = U(k,1)*(AV[k]-lambda*BV[k]); }
```
each `q = …` being a plain assignment. -/

def nonOrthResidual [Inhabited T] (ops : TensorOps T) (U : Mat) (lambda : ℚ)
    (AV BV : Nat → T) (ii : Nat) : T :=
  let _dead := ops.smul (U 1 1, 0) (AV 1)
  let q := ops.smul (U 1 1, 0) (ops.add (AV 1) (ops.smul (-lambda, 0) (BV 1)))
  ((List.range (ii - 1)).map (· + 2)).foldl
    (fun _q k => ops.smul (U k 1, 0) (ops.add (AV k) (ops.smul (-lambda, 0) (BV k)))) q

/-- Spec-side residual `q = Σ_{k=1..ii} U(k,1)·(AV[k] − λ·BV[k])`. -/
def nonOrthResidualSpec [Inhabited T] (ops : TensorOps T) (U : Mat) (lambda : ℚ)
    (AV BV : Nat → T) (ii : Nat) : T :=
  ((List.range (ii - 1)).map (· + 2)).foldl
    (fun q k => ops.add q (ops.smul (U k 1, 0) (ops.add (AV k) (ops.smul (-lambda, 0) (BV k)))))
    (ops.smul (U 1 1, 0) (ops.add (AV 1) (ops.smul (-lambda, 0) (BV 1))))

/-!  ### The Davidson driver `complexDavidson` (lines 259–709)

The outer `for(ii)` loop is a fuel recursion with fuel
`(actual_maxiter + 1).toNat`, so it runs iterations `ii = 0, 1, …,
actual_maxiter` unless a `goto done` or the break-and-exit path fires
first.  `q` is `Tensor& q = V.at(ni)`: it is threaded as an explicit value
and stored into `V[ni]` before `AV[ni]` is computed; `V[ni]` is never read
before that point, so the explicit threading is observationally the same
as the in-place mutation.  The state carries a ghost field `phiW`
recording which entries of `phi` have received a Ritz-vector write (the
projection write to `phi[t]` and the post-loop harvest writes); the ghost
never feeds back into the computation. -/

/-- Which dense routine a projection uses, as selected by the sticky
`complex_diag` flag and the `Hermitian` option. -/
inductive EigRoutine
  | evReal      -- EigenValues
  | evGen       -- GenEigenValues
  | evHerm      -- HermitianEigenvalues
  | evComplex   -- ComplexEigenvalues
deriving DecidableEq

/-- Dispatch of the projection in `complexDavidson`:
`complex_diag ? (hermitian ? HermitianEigenvalues : ComplexEigenvalues)
              : (hermitian ? EigenValues : GenEigenValues)`. -/
def projRoutine (complexDiag hermitian : Bool) : EigRoutine :=
  if complexDiag then (if hermitian then .evHerm else .evComplex)
  else (if hermitian then .evReal else .evGen)

/-- `if(!complex_diag && Norm(newColI) > errgoal_) complex_diag = true;`
with the norm of the new imaginary column given through its square. -/
def complexDiagStep (cd : Bool) (colImagSq errgoal : ℚ) : Bool :=
  if ¬cd ∧ sqrtGt colImagSq errgoal then true else cd

/-- Outcome of the convergence-and-targeting test (Step C). -/
inductive CheckRes
  | advanced (t2 : Nat) (ll2 : CQ)   -- ++t; last_lambda = (1000, 0); stay in the loop
  | exitDone                         -- goto done
  | noBreak (ll2 : CQ)               -- no break; last_lambda = lambda
deriving DecidableEq

/-- `true` on the two branches that leave the expansion phase. -/
def CheckRes.leaves : CheckRes → Bool
  | .noBreak _ => false
  | _ => true

/-- Step C of the driver (lines 462–498): the convergence predicate, the
break test, and the targeting decision on a break. -/
def convergenceTargeting (errgoal : ℚ) (miniter actualMaxIter : Int) (nget : Nat)
    (ii : Int) (t : Nat) (qnorm : ℚ) (lambda lastLambda : CQ) : CheckRes :=
  if qnorm < tinyBreak ∨
     (((qnorm < errgoal ∧ cabsLt (csub lambda lastLambda) errgoal) ∨
        qnorm < max approx0 (errgoal * (1 / 1000))) ∧ ii ≥ miniter) ∨
     ii = actualMaxIter then
    if t < nget - 1 ∧ ii < actualMaxIter then .advanced (t + 1) (1000, 0)
    else .exitDone
  else .noBreak lambda

/-- Mutable state of one `complexDavidson` invocation. -/
structure LoopState (T : Type) where
  V : Nat → T
  AV : Nat → T
  MR : Mat
  MI : Mat
  D : Vec
  DI : Vec
  UR : Mat
  UI : Mat
  /-- `UR.Nrows()`: dimension written by the last diagonalization -/
  urN : Nat
  /-- `UI.Nrows()` -/
  uiN : Nat
  t : Nat
  lastLambda : CQ
  eigs : List CQ
  phi : List T
  /-- ghost: which entries of `phi` received a Ritz-vector write -/
  phiW : List Bool
  complexDiag : Bool
  iter : Nat
  qnorm : ℚ

/-- Result of a run: the eigenvalues, the mutated guess vectors, the ghost
write-map and the iteration counter. -/
structure DavResult (T : Type) where
  eigs : List CQ
  phi : List T
  phiW : List Bool
  iter : Nat
deriving DecidableEq

/-- Immutable context of one invocation. -/
structure DavCtx (T : Type) where
  ops : TensorOps T
  dense : DenseSolvers
  A : BigMatrix T
  opts : DavOpts
  nget : Nat
  actualMaxIter : Int
  Adiag : Option T
  initEn : ℚ

/-- Left fold accumulating `x0 + Σ coeff k · W k` over the listed indices,
in the source's term-by-term `+=` order. -/
def accumTerms (ops : TensorOps T) (x0 : T) (coeff : Nat → CQ) (W : Nat → T)
    (ks : List Nat) : T :=
  ks.foldl (fun acc k => ops.add acc (ops.smul (coeff k) (W k))) x0

/-- Step A (ii = 0): `lambda = initEn; Mref = [[initEn]]; q = AV[0] − λ·V[0]`.
Returns the updated state, the residual `q` and `lambda`. -/
def seedStep (ctx : DavCtx T) (st : LoopState T) : LoopState T × T × CQ :=
  let lambda : CQ := (ctx.initEn, 0)
  let MR := setMatCol st.MR 1 1 (fun _ => ctx.initEn)
  let MI := setMatCol st.MI 1 1 (fun _ => 0)
  let q := ctx.ops.add (ctx.ops.smul (-ctx.initEn, 0) (st.V 0)) (st.AV 0)
  ({ st with MR := MR, MI := MI, eigs := st.eigs.set st.t lambda }, q, lambda)

/-- Projection step at `ii ≥ 1` (lines 361–458): diagonalize the projected
matrix via the routine selected by `projRoutine`, pick the target index
`w`, synthesize `phi[t]` and start the residual `q`, subtract `λ·phi[t]`,
and apply the sign fix.  Returns the updated state, `q` and `lambda`. -/
def projectStep (ctx : DavCtx T) (ii : Nat) (st : LoopState T) : LoopState T × T × CQ :=
  let n := ii + 1
  let d :=
    match projRoutine st.complexDiag ctx.opts.hermitian with
    | .evHerm =>
      let r := ctx.dense.hermitianEigenvalues n st.MR st.MI
      let D := r.1; let UR := r.2.1; let UI := r.2.2
      let w := st.t
      let coeff : Nat → CQ := fun k => (UR (k + 1) (1 + w), UI (k + 1) (1 + w))
      let phiT := accumTerms ctx.ops (ctx.ops.smul (coeff 0) (st.V 0)) coeff st.V (oneTo ii)
      let q := accumTerms ctx.ops (ctx.ops.smul (coeff 0) (st.AV 0)) coeff st.AV (oneTo ii)
      (D, zeroVec, UR, UI, n, n, w, phiT, q)
    | .evComplex =>
      let r := ctx.dense.complexEigenvalues n st.MR st.MI
      let D := r.1; let DI := r.2.1; let UR := r.2.2.1; let UI := r.2.2.2
      let w := (findEig st.t n D DI).toNat
      let coeff : Nat → CQ := fun k => (UR (k + 1) (1 + w), UI (k + 1) (1 + w))
      let phiT := accumTerms ctx.ops (ctx.ops.smul (coeff 0) (st.V 0)) coeff st.V (oneTo ii)
      let q := accumTerms ctx.ops (ctx.ops.smul (coeff 0) (st.AV 0)) coeff st.AV (oneTo ii)
      (D, DI, UR, UI, n, n, w, phiT, q)
    | .evReal =>
      let r := ctx.dense.eigenValues n st.MR
      let D := r.1; let UR := r.2
      let w := st.t
      let coeff : Nat → CQ := fun k => (UR (k + 1) (1 + w), 0)
      let phiT := accumTerms ctx.ops (ctx.ops.smul (coeff 0) (st.V 0)) coeff st.V (oneTo ii)
      let q := accumTerms ctx.ops (ctx.ops.smul (coeff 0) (st.AV 0)) coeff st.AV (oneTo ii)
      (D, zeroVec, UR, st.UI, n, st.uiN, w, phiT, q)
    | .evGen =>
      let r := ctx.dense.genEigenValues n st.MR
      let D := r.1; let DI := r.2.1; let UR := r.2.2.1; let UI := r.2.2.2
      let w := (findEig st.t n D DI).toNat
      let complexEvec := sqrtGt (sumOneTo n (fun i => (UI i (1 + w)) ^ 2)) approx0
      let coeff : Nat → CQ := fun k => (UR (k + 1) (1 + w), 0)
      let phiT := accumTerms ctx.ops (ctx.ops.smul (coeff 0) (st.V 0)) coeff st.V (oneTo ii)
      let q := accumTerms ctx.ops (ctx.ops.smul (coeff 0) (st.AV 0)) coeff st.AV (oneTo ii)
      let icoeff : Nat → CQ := fun k => (0, UI (k + 1) (1 + w))
      let phiT := if complexEvec then
          accumTerms ctx.ops (ctx.ops.add phiT (ctx.ops.smul (icoeff 0) (st.V 0)))
            icoeff st.V (oneTo ii)
        else phiT
      let q := if complexEvec then
          accumTerms ctx.ops (ctx.ops.add q (ctx.ops.smul (icoeff 0) (st.AV 0)))
            icoeff st.AV (oneTo ii)
        else q
      (D, DI, UR, UI, n, n, w, phiT, q)
  let D := d.1; let DI := d.2.1; let UR := d.2.2.1; let UI := d.2.2.2.1
  let urN := d.2.2.2.2.1; let uiN := d.2.2.2.2.2.1; let w := d.2.2.2.2.2.2.1
  let phiT := d.2.2.2.2.2.2.2.1; let q := d.2.2.2.2.2.2.2.2
  let lambda : CQ := (D (1 + w), DI (1 + w))
  let q := if lambda.2 ≤ approx0 then ctx.ops.add q (ctx.ops.smul (-lambda.1, 0) phiT)
           else ctx.ops.add q (ctx.ops.smul (cneg lambda) phiT)
  let s := if UR 1 (1 + w) < 0 then (ctx.ops.smul (-1, 0) phiT, ctx.ops.smul (-1, 0) q)
           else (phiT, q)
  ({ st with D := D, DI := DI, UR := UR, UI := UI, urN := urN, uiN := uiN,
             eigs := st.eigs.set st.t lambda,
             phi := st.phi.set st.t s.1,
             phiW := st.phiW.set st.t true }, s.2, lambda)

/-- Outcome of the Gram–Schmidt loop on the new direction. -/
inductive GSOut (T : Type)
  | ok (q : T)     -- loop finished; q is the normalized new basis vector
  | bail           -- goto done (basis saturated or too many randomizations)

/-- The `for(pass)` loop (lines 532–587) with `Npass = 1`: one projection
pass against `V[0..ni-1]`, breakdown detection with randomized restart
(`q = randomize(V[ni-1])`), the two `goto done` escapes, and final
normalization.  The loop body runs at most 4 times (each entry increments
`count`; a failing entry with `count > 3` bails, a succeeding entry ends
the loop), so fuel 8 is never exhausted. -/
def gsLoop (ops : TensorOps T) (V : Nat → T) (ni maxsize : Nat) :
    Nat → Nat → Nat → T → GSOut T
  | 0, _, _, q => .ok q
  | fuel + 1, count, pass, q =>
    if pass > 1 then .ok q
    else
      let count := count + 1
      let Vq : Nat → CQ := fun k => ops.braket (V k) q
      let q := (List.range ni).foldl
        (fun q k =>
          let q := ops.add q (ops.smul (-(Vq k).1, 0) (V k))
          if (Vq k).2 ≠ 0 then ops.add q (ops.smul (0, -(Vq k).2) (V k)) else q)
        q
      let qn := ops.norm q
      if qn < gsEps then
        let q := ops.randomize (V (ni - 1))
        if ni ≥ maxsize then .bail
        else if count > 3 then .bail
        else
          let qn := ops.norm q
          gsLoop ops V ni maxsize fuel count pass (ops.smul (1 / qn, 0) q)
      else gsLoop ops V ni maxsize fuel count (pass + 1) (ops.smul (1 / qn, 0) q)

/-- Outcome of the tail of one outer iteration. -/
inductive StepOut (T : Type)
  | err (e : String)        -- fatal Error (debug-only normalization check)
  | done (st : LoopState T) -- goto done
  | next (st : LoopState T) -- proceed to iteration ii + 1

/-- Steps D–H of one outer iteration (lines 519–645): preconditioning,
Gram–Schmidt, the debug-level-3 normalization assertion, `AV[ni] =
A·V[ni]`, the new row and column of the projected matrix, and the sticky
`complex_diag` update. -/
def expandStep (ctx : DavCtx T) (ii : Nat) (st : LoopState T) (q : T) (lambda : CQ) :
    StepOut T :=
  let ni := ii + 1
  let q :=
    match ctx.Adiag with
    | some adiag => ctx.ops.divBy q (ctx.ops.mapElems (davidsonPrecond lambda.1) adiag)
    | none => q
  match gsLoop ctx.ops st.V ni ctx.A.size 8 0 1 q with
  | .bail => .done st
  | .ok q =>
    if ctx.opts.debugLevel ≥ 3 ∧ ¬(|ctx.ops.norm q - 1| ≤ gsEps) then
      .err "q not normalized after Gram Schmidt."
    else
      let V2 : Nat → T := fun k => if k = ni then q else st.V k
      let AVni := ctx.A.product q
      let AV2 : Nat → T := fun k => if k = ni then AVni else st.AV k
      let newCol : Nat → CQ := fun idx => ctx.ops.braket (V2 (idx - 1)) AVni
      let MR1 := setMatCol st.MR (ni + 1) (ni + 1) (fun i => (newCol i).1)
      let MI1 := setMatCol st.MI (ni + 1) (ni + 1) (fun i => (newCol i).2)
      let M2 :=
        if ctx.opts.hermitian then
          (setMatRow MR1 (ni + 1) (ni + 1) (fun j => (newCol j).1),
           setMatRow MI1 (ni + 1) (ni + 1) (fun j => -(newCol j).2))
        else
          let newRow : Nat → CQ := fun idx =>
            if idx = ni + 1 then newCol (ni + 1) else ctx.ops.braket q (st.AV (idx - 1))
          (setMatRow MR1 (ni + 1) (ni + 1) (fun j => (newRow j).1),
           setMatRow MI1 (ni + 1) (ni + 1) (fun j => (newRow j).2))
      let colImagSq := sumOneTo (ni + 1) (fun i => ((newCol i).2) ^ 2)
      .next { st with V := V2, AV := AV2, MR := M2.1, MI := M2.2,
                      complexDiag := complexDiagStep st.complexDiag colImagSq ctx.opts.errGoal,
                      iter := st.iter + 1 }

/-- One post-loop harvest write for index `j` (lines 653–675): record
`eigs[j] = (D(1+j), DI(1+j))` and synthesize `phi[j]` from column `1+t`
of `(UR, UI)` over `V[0..Nr-1]` with `Nr = UR.Nrows()`. -/
def harvestWrite (ctx : DavCtx T) (st : LoopState T) (j : Nat)
    (acc : List CQ × List T × List Bool) : List CQ × List T × List Bool :=
  let eigs := acc.1.set j (st.D (1 + j), st.DI (1 + j))
  let complexEvec := sqrtGt (sumOneTo st.uiN (fun r => (st.UI r (1 + st.t)) ^ 2)) approx0
  let Nr := st.urN
  let phiJ := accumTerms ctx.ops (ctx.ops.smul (st.UR 1 (1 + st.t), 0) (st.V 0))
    (fun k => (st.UR (1 + k) (1 + st.t), 0)) st.V (oneTo (Nr - 1))
  let phiJ :=
    if complexEvec then
      accumTerms ctx.ops (ctx.ops.add phiJ (ctx.ops.smul (0, st.UI 1 (1 + st.t)) (st.V 0)))
        (fun k => (0, st.UI (1 + k) (1 + st.t))) st.V (oneTo (Nr - 1))
    else phiJ
  (eigs, acc.2.1.set j phiJ, acc.2.2.set j true)

/-- The harvest loop `for(j = t+1; j < nget; ++j)`. -/
def harvestFrom (ctx : DavCtx T) (st : LoopState T) :
    Nat → Nat → List CQ × List T × List Bool → List CQ × List T × List Bool
  | _, 0, acc => acc
  | j, fuel + 1, acc => harvestFrom ctx st (j + 1) fuel (harvestWrite ctx st j acc)

/-- The `done:` label: harvest the remaining targets and assemble the
result. -/
def finish (ctx : DavCtx T) (st : LoopState T) : DavResult T :=
  let h := harvestFrom ctx st (st.t + 1) (ctx.nget - (st.t + 1)) (st.eigs, st.phi, st.phiW)
  { eigs := h.1, phi := h.2.1, phiW := h.2.2, iter := st.iter }

/-- The outer `for(ii = 0; ii <= actual_maxiter; ++ii)` loop. -/
def davLoop (ctx : DavCtx T) : Nat → Nat → LoopState T → Except String (DavResult T)
  | 0, _, st => .ok (finish ctx st)
  | fuel + 1, ii, st =>
    let p := if ii = 0 then seedStep ctx st else projectStep ctx ii st
    let st1 := p.1; let q := p.2.1; let lambda := p.2.2
    let qn := ctx.ops.norm q
    let st2 := { st1 with qnorm := qn }
    match convergenceTargeting ctx.opts.errGoal ctx.opts.minIter ctx.actualMaxIter ctx.nget
        (ii : Int) st2.t qn lambda st2.lastLambda with
    | .exitDone => .ok (finish ctx { st2 with lastLambda := lambda })
    | .advanced t2 ll2 =>
      match expandStep ctx ii { st2 with t := t2, lastLambda := ll2 } q lambda with
      | .err e => .error e
      | .done st3 => .ok (finish ctx st3)
      | .next st3 => davLoop ctx fuel (ii + 1) st3
    | .noBreak ll2 =>
      match expandStep ctx ii { st2 with lastLambda := ll2 } q lambda with
      | .err e => .error e
      | .done st3 => .ok (finish ctx st3)
      | .next st3 => davLoop ctx fuel (ii + 1) st3

/-- The entry-check-and-normalization loop over the guesses (lines
279–285): `Error("norm of 0 in davidson")` on a zero norm, otherwise
`phi[j] *= 1/nrm`. -/
def normalizeGuesses (ops : TensorOps T) : List T → Except String (List T)
  | [] => .ok []
  | x :: xs =>
    let nrm := ops.norm x
    if nrm = 0 then .error "norm of 0 in davidson"
    else
      match normalizeGuesses ops xs with
      | .error e => .error e
      | .ok rest => .ok (ops.smul (1 / nrm, 0) x :: rest)

/-- `complexDavidson(A, phi, opts)`: input checks, in-place normalization
of the guesses, seeding of `V[0], AV[0], initEn`, the outer loop, and the
post-loop harvest. -/
def complexDavidson [Inhabited T] (ops : TensorOps T) (dense : DenseSolvers)
    (A : BigMatrix T) (phi0 : List T) (opts : DavOpts) : Except String (DavResult T) :=
  let nget := phi0.length
  if nget = 0 then .error "No initial vectors passed to davidson."
  else
    match normalizeGuesses ops phi0 with
    | .error e => .error e
    | .ok phi1 =>
      let maxsize := A.size
      let actualMaxIter : Int := min opts.maxIter ((maxsize : Int) - 1)
      if ops.dim (phi1.headD default) ≠ maxsize then
        .error "davidson: size of initial vector should match linear matrix size"
      else
        let V0 := phi1.headD default
        let AV0 := A.product V0
        let ctx : DavCtx T :=
          { ops := ops, dense := dense, A := A, opts := opts, nget := nget,
            actualMaxIter := actualMaxIter, Adiag := A.diag,
            initEn := (ops.braket V0 AV0).1 }
        let st0 : LoopState T :=
          { V := fun k => if k = 0 then V0 else default,
            AV := fun k => if k = 0 then AV0 else default,
            MR := zeroMat, MI := zeroMat,
            D := zeroVec, DI := zeroVec, UR := zeroMat, UI := zeroMat,
            urN := 0, uiN := 0,
            t := 0, lastLambda := (1000, 0),
            eigs := List.replicate nget (0, 0),
            phi := phi1,
            phiW := List.replicate nget false,
            complexDiag := false, iter := 0, qnorm := 0 }
        davLoop ctx (actualMaxIter + 1).toNat 0 st0

/-- The block real wrapper `davidson(A, vector<Tensor>& phi, opts)`: real
parts of the complex eigenvalues. -/
def davidsonVec [Inhabited T] (ops : TensorOps T) (dense : DenseSolvers)
    (A : BigMatrix T) (phi : List T) (opts : DavOpts) : Except String (List ℚ × List T) :=
  match complexDavidson ops dense A phi opts with
  | .error e => .error e
  | .ok r => .ok (r.eigs.map Prod.fst, r.phi)

/-- The single-vector real wrapper `davidson(A, Tensor& phi, opts)`. -/
def davidson [Inhabited T] (ops : TensorOps T) (dense : DenseSolvers)
    (A : BigMatrix T) (phi : T) (opts : DavOpts) : Except String (ℚ × T) :=
  match davidsonVec ops dense A [phi] opts with
  | .error e => .error e
  | .ok r => .ok (r.1.headD 0, r.2.headD default)

/-!  ### Spec-side definitions used to state the claims -/

/-- Spec-side Ritz-vector synthesis from column `col` of `(UR, UI)`:
`Σₖ U[k,col]·V[k]` over `k = 0..Nr-1`, with the imaginary part added when
that eigenvector column is complex (`‖UI.Column(col)‖ > Approx0`). -/
def ritzSynthCol [Inhabited T] (ops : TensorOps T) (UR UI : Mat) (urN uiN : Nat)
    (V : Nat → T) (col : Nat) : T :=
  let complexEvec := sqrtGt (sumOneTo uiN (fun r => (UI r col) ^ 2)) approx0
  let x := accumTerms ops (ops.smul (UR 1 col, 0) (V 0))
    (fun k => (UR (1 + k) col, 0)) V (oneTo (urN - 1))
  if complexEvec then
    accumTerms ops (ops.add x (ops.smul (0, UI 1 col) (V 0)))
      (fun k => (0, UI (1 + k) col)) V (oneTo (urN - 1))
  else x

/-- `complex_diag` after processing the listed squared imaginary-column
norms, one per expansion, starting from `false`. -/
def complexDiagAfter (errgoal : ℚ) (cols : List ℚ) : Bool :=
  cols.foldl (fun cd s => complexDiagStep cd s errgoal) false

/-!  ### A concrete tensor implementation (complex rational vectors)

Used to instantiate the abstract interfaces in witnesses and
counterexamples.  `ratSqrt` is the exact square root on perfect-square
rationals; every norm taken in the concrete runs below lands on a perfect
square, so `norm` agrees with the true Euclidean norm there. -/

/-- Integer square root (rounded down) by the classical divide-by-4
recursion, with explicit fuel so it reduces by rewriting; `fuel = 64`
covers every argument below `4^64`. -/
def isqrtFuel : Nat → Nat → Nat
  | 0, _ => 0
  | fuel + 1, n =>
    if n = 0 then 0
    else
      2 * isqrtFuel fuel (n / 4) +
        (if (2 * isqrtFuel fuel (n / 4) + 1) * (2 * isqrtFuel fuel (n / 4) + 1) ≤ n then 1
         else 0)

/-- Exact square root of perfect-square rationals. -/
def ratSqrt (q : ℚ) : ℚ := (isqrtFuel 64 q.num.toNat : ℚ) / (isqrtFuel 64 q.den : ℚ)

/-- Complex division `x / y = x·conj(y)/|y|²` (0 when `y = 0`). -/
def cdiv (x y : CQ) : CQ :=
  let n := cnormSq y
  ((x.1 * y.1 + x.2 * y.2) / n, (x.2 * y.1 - x.1 * y.2) / n)

/-- Componentwise tensor algebra on complex rational vectors. -/
def vops : TensorOps (List CQ) where
  add a b := List.zipWith cadd a b
  smul c v := v.map (cmul c)
  norm v := ratSqrt ((v.map cnormSq).sum)
  braket a b := (List.zipWith (fun x y => cmul (cconj x) y) a b).foldl cadd (0, 0)
  divBy a d := List.zipWith cdiv a d
  mapElems f v := v.map (fun z => (f z.1, z.2))
  randomize := id
  dim v := v.length

/-- Dense oracle returning zero spectra (sufficient for runs that never
reach a projection). -/
def denseZero : DenseSolvers where
  eigenValues _ _ := (zeroVec, zeroMat)
  hermitianEigenvalues _ _ _ := (zeroVec, zeroMat, zeroMat)
  genEigenValues _ _ := (zeroVec, zeroVec, zeroMat, zeroMat)
  complexEigenvalues _ _ _ := (zeroVec, zeroVec, zeroMat, zeroMat)

/-- Real rational vector embedded into `List CQ`. -/
def rvec (l : List ℚ) : List CQ := l.map (fun x => (x, 0))

/-- The linear operator with columns `c0, c1, c2` on 3-vectors. -/
def colOp3 (c0 c1 c2 : List CQ) : BigMatrix (List CQ) where
  product v :=
    vops.add (vops.add (vops.smul (v.getD 0 (0, 0)) c0) (vops.smul (v.getD 1 (0, 0)) c1))
      (vops.smul (v.getD 2 (0, 0)) c2)
  size := 3
  diag := none

/-!  ## Theorems -/

/-- C1: at every outer iteration the driver leaves the expansion phase
exactly when `qn < 1e-20`, or `ii = actual_maxiter`, or `ii ≥ MinIter` and
(`qn < ErrGoal` and `|λ − lastλ| < ErrGoal`, or `qn < max(1e-12,
ErrGoal·1e-3)`); on such a break the target advances to `t+1` with `lastλ`
reset to `(1000, 0)` exactly when `t < nget−1` and `ii < actual_maxiter`,
and otherwise the decision is the exit to post-processing.  (The driver
`davLoop` consumes an `advanced` decision by continuing the body of the
same iteration and then recursing on `ii + 1`: the iteration counter is
not reset.) -/
theorem C1_break_targeting (errgoal : ℚ) (miniter actualMaxIter : Int) (nget : Nat)
    (ii : Int) (t : Nat) (qnorm : ℚ) (lambda lastLambda : CQ) :
    ((convergenceTargeting errgoal miniter actualMaxIter nget ii t qnorm lambda lastLambda).leaves
        = true ↔
      qnorm < tinyBreak ∨ ii = actualMaxIter ∨
        (ii ≥ miniter ∧ ((qnorm < errgoal ∧ cabsLt (csub lambda lastLambda) errgoal) ∨
          qnorm < max approx0 (errgoal * (1 / 1000))))) ∧
    (convergenceTargeting errgoal miniter actualMaxIter nget ii t qnorm lambda lastLambda
        = .advanced (t + 1) (1000, 0) ↔
      ((qnorm < tinyBreak ∨ ii = actualMaxIter ∨
        (ii ≥ miniter ∧ ((qnorm < errgoal ∧ cabsLt (csub lambda lastLambda) errgoal) ∨
          qnorm < max approx0 (errgoal * (1 / 1000))))) ∧ t < nget - 1 ∧ ii < actualMaxIter)) ∧
    (convergenceTargeting errgoal miniter actualMaxIter nget ii t qnorm lambda lastLambda
        = .exitDone ↔
      ((qnorm < tinyBreak ∨ ii = actualMaxIter ∨
        (ii ≥ miniter ∧ ((qnorm < errgoal ∧ cabsLt (csub lambda lastLambda) errgoal) ∨
          qnorm < max approx0 (errgoal * (1 / 1000))))) ∧
        ¬(t < nget - 1 ∧ ii < actualMaxIter))) := by
  have hiff : (qnorm < tinyBreak ∨
      (((qnorm < errgoal ∧ cabsLt (csub lambda lastLambda) errgoal) ∨
        qnorm < max approx0 (errgoal * (1 / 1000))) ∧ ii ≥ miniter) ∨
      ii = actualMaxIter) ↔
      (qnorm < tinyBreak ∨ ii = actualMaxIter ∨
        (ii ≥ miniter ∧ ((qnorm < errgoal ∧ cabsLt (csub lambda lastLambda) errgoal) ∨
          qnorm < max approx0 (errgoal * (1 / 1000))))) := by tauto
  unfold convergenceTargeting
  split_ifs with hb ha
  · exact ⟨iff_of_true rfl (hiff.mp hb), iff_of_true rfl ⟨hiff.mp hb, ha⟩,
      iff_of_false (by simp) (fun h => h.2 ha)⟩
  · exact ⟨iff_of_true rfl (hiff.mp hb), iff_of_false (by simp) (fun h => ha h.2),
      iff_of_true rfl ⟨hiff.mp hb, ha⟩⟩
  · exact ⟨iff_of_false (by simp [CheckRes.leaves]) (fun hp => hb (hiff.mpr hp)),
      iff_of_false (by simp) (fun h => hb (hiff.mpr h.1)),
      iff_of_false (by simp) (fun h => hb (hiff.mpr h.1))⟩

/-- One `complex_diag` update equals an or with the threshold test. -/
theorem complexDiagStep_or (cd : Bool) (s e : ℚ) :
    complexDiagStep cd s e = (cd || decide (sqrtGt s e)) := by
  unfold complexDiagStep
  cases cd <;> split_ifs <;> simp_all

/-- Folding `complex_diag` updates from an arbitrary start. -/
theorem complexDiagFold_or (e : ℚ) (b : Bool) (l : List ℚ) :
    l.foldl (fun cd s => complexDiagStep cd s e) b
      = (b || l.any fun s => decide (sqrtGt s e)) := by
  induction l generalizing b with
  | nil => simp
  | cons x xs ih =>
    rw [List.foldl_cons, ih, complexDiagStep_or, List.any_cons, Bool.or_assoc]

/-- C6: the `complex_diag` flag starts `false`, is monotone (once `true`
after some prefix of expansions it stays `true` after any further
expansions), becomes `true` exactly when some appended column has
imaginary part exceeding `ErrGoal` in norm, and once `true` the projection
dispatch is the complex code path (`HermitianEigenvalues` or
`ComplexEigenvalues`), never the real path. -/
theorem C6_complex_diag_monotone (e : ℚ) :
    complexDiagAfter e [] = false ∧
    (∀ l1 l2 : List ℚ, complexDiagAfter e l1 = true → complexDiagAfter e (l1 ++ l2) = true) ∧
    (∀ l : List ℚ, complexDiagAfter e l = true ↔ ∃ s ∈ l, sqrtGt s e) ∧
    (∀ h : Bool, projRoutine true h = .evHerm ∨ projRoutine true h = .evComplex) := by
  refine ⟨rfl, ?_, ?_, ?_⟩
  · intro l1 l2 h1
    unfold complexDiagAfter at h1 ⊢
    rw [List.foldl_append, complexDiagFold_or, h1]
    simp
  · intro l
    unfold complexDiagAfter
    rw [complexDiagFold_or]
    simp
  · intro h
    cases h <;> simp [projRoutine]

/-- Witness for C6 at a concrete expansion trace. -/
theorem C6_complex_diag_monotone_witness :
    complexDiagAfter 1 [0, 2] = true ∧
    (projRoutine true true = .evHerm ∨ projRoutine true true = .evComplex) :=
  ⟨((C6_complex_diag_monotone 1).2.2.1 [0, 2]).mpr ⟨2, by decide, by decide⟩,
    (C6_complex_diag_monotone 1).2.2.2 true⟩

/-- Concrete data for the `nonOrthDavidson` residual-assembly bug:
`U ≡ 1`, `λ = 0`, `AV[1] = e₁`, `AV[2] = e₂`, `BV ≡ 0`, `ii = 2`. -/
def c2U : Mat := fun _ _ => 1

def c2AV : Nat → List CQ := fun k => if k = 1 then [(1, 0), (0, 0)] else [(0, 0), (1, 0)]

def c2BV : Nat → List CQ := fun _ => [(0, 0), (0, 0)]

/-- C2: the residual assembly of `nonOrthDavidson` overwrites `q` inside
the `k`-loop, so at `ii = 2` the embedded code yields only the last term
`U(2,1)·(AV[2] − λ·BV[2]) = e₂` instead of the full sum
`Σₖ U(k,1)·(AV[k] − λ·BV[k]) = e₁ + e₂` that the claim states. -/
theorem C2_residual_assignment_bug :
    nonOrthResidual vops c2U 0 c2AV c2BV 2 = [(0, 0), (1, 0)] ∧
    nonOrthResidualSpec vops c2U 0 c2AV c2BV 2 = [(1, 0), (1, 0)] ∧
    nonOrthResidual vops c2U 0 c2AV c2BV 2 ≠ nonOrthResidualSpec vops c2U 0 c2AV c2BV 2 := by
  refine ⟨?_, ?_, ?_⟩ <;>
    norm_num [nonOrthResidual, nonOrthResidualSpec, vops, c2U, c2AV, c2BV, cadd, cmul,
      List.zipWith, List.range_succ, Prod.ext_iff]

/-!  ### Correctness of `findEig` -/

/-- The multiset of squared moduli over positions `1..L`, as a finset. -/
def valsFinset (A2 : Vec) (L : Nat) : Finset ℚ := ((oneTo L).map A2).toFinset

theorem mem_oneTo {i n : Nat} : i ∈ oneTo n ↔ 1 ≤ i ∧ i ≤ n := by
  unfold oneTo
  simp only [List.mem_map, List.mem_range]
  constructor
  · rintro ⟨a, ha, rfl⟩; omega
  · rintro ⟨h1, h2⟩; exact ⟨i - 1, by omega, by omega⟩

theorem mem_valsFinset {A2 : Vec} {L : Nat} {x : ℚ} :
    x ∈ valsFinset A2 L ↔ ∃ i, 1 ≤ i ∧ i ≤ L ∧ A2 i = x := by
  unfold valsFinset
  simp only [List.mem_toFinset, List.mem_map]
  constructor
  · rintro ⟨i, hi, rfl⟩; exact ⟨i, (mem_oneTo.mp hi).1, (mem_oneTo.mp hi).2, rfl⟩
  · rintro ⟨i, h1, h2, rfl⟩; exact ⟨i, mem_oneTo.mpr ⟨h1, h2⟩, rfl⟩

theorem findEigA2_nonneg (DR DI : Vec) (i : Nat) : 0 ≤ findEigA2 DR DI i := by
  unfold findEigA2; positivity

/-- The seeding loop returns the first 1-based index of the maximal value. -/
theorem seedAux_spec (A2 : Vec) (h0 : ∀ i, 0 ≤ A2 i) :
    ∀ L, 1 ≤ L →
    ∃ w : Nat, seedAux A2 L = (A2 w, (w : Int)) ∧ 1 ≤ w ∧ w ≤ L ∧
      (∀ i, 1 ≤ i → i ≤ L → A2 i ≤ A2 w) ∧ (∀ i, 1 ≤ i → i < w → A2 i < A2 w) := by
  intro L hL
  induction L, hL using Nat.le_induction with
  | base =>
    refine ⟨1, ?_, le_refl 1, le_refl 1, ?_, ?_⟩
    · show (if (seedAux A2 0).1 < A2 1 then (A2 1, ((1 : Nat) : Int)) else seedAux A2 0)
        = (A2 1, (1 : Int))
      rw [if_pos]
      · norm_num
      · show (-1 : ℚ) < A2 1
        linarith [h0 1]
    · intro i h1 h2
      have : i = 1 := by omega
      simp [this]
    · intro i h1 h2; omega
  | succ L hL ih =>
    obtain ⟨w, hw, hw1, hwL, hmax, hstrict⟩ := ih
    show (∃ w2 : Nat,
      (if (seedAux A2 L).1 < A2 (L + 1) then (A2 (L + 1), ((L + 1 : Nat) : Int))
        else seedAux A2 L) = (A2 w2, (w2 : Int)) ∧ _ ∧ _ ∧ _ ∧ _)
    rw [hw]
    by_cases hc : A2 w < A2 (L + 1)
    · rw [if_pos hc]
      refine ⟨L + 1, rfl, by omega, le_refl _, ?_, ?_⟩
      · intro i h1 h2
        rcases Nat.lt_succ_iff_lt_or_eq.mp (Nat.lt_succ_of_le h2) with h | h
        · exact le_of_lt (lt_of_le_of_lt (hmax i h1 (by omega)) hc)
        · simp [h]
      · intro i h1 h2
        exact lt_of_le_of_lt (hmax i h1 (by omega)) hc
    · rw [if_neg hc]
      refine ⟨w, rfl, hw1, by omega, ?_, hstrict⟩
      intro i h1 h2
      rcases Nat.lt_succ_iff_lt_or_eq.mp (Nat.lt_succ_of_le h2) with h | h
      · exact hmax i h1 (by omega)
      · rw [h]; exact le_of_not_lt hc

/-- One displacement pass: either no value lies strictly below the
threshold and the pass keeps `(−1, w0)`, or it returns the first index of
the largest value strictly below the threshold. -/
theorem dispAux_spec (A2 : Vec) (h0 : ∀ i, 0 ≤ A2 i) (v : ℚ) (w0 : Int) :
    ∀ L,
    ((¬∃ i, 1 ≤ i ∧ i ≤ L ∧ A2 i < v) ∧ dispAux A2 v w0 L = (-1, w0)) ∨
    (∃ w : Nat, dispAux A2 v w0 L = (A2 w, (w : Int)) ∧ 1 ≤ w ∧ w ≤ L ∧ A2 w < v ∧
      (∀ i, 1 ≤ i → i ≤ L → A2 i < v → A2 i ≤ A2 w) ∧
      (∀ i, 1 ≤ i → i < w → A2 i < v → A2 i < A2 w)) := by
  intro L
  induction L with
  | zero =>
    left
    constructor
    · rintro ⟨i, h1, h2, _⟩; omega
    · rfl
  | succ L ih =>
    have hstep : dispAux A2 v w0 (L + 1) =
        (if (dispAux A2 v w0 L).1 < A2 (L + 1) ∧ A2 (L + 1) < v
          then (A2 (L + 1), ((L + 1 : Nat) : Int)) else dispAux A2 v w0 L) := rfl
    rcases ih with ⟨hne, hp⟩ | ⟨w, hp, h1, hL2, hv, hmax, hstrict⟩
    · rw [hp] at hstep
      by_cases hc : A2 (L + 1) < v
      · right
        rw [if_pos ⟨by norm_num; linarith [h0 (L + 1)], hc⟩] at hstep
        refine ⟨L + 1, hstep, by omega, le_refl _, hc, ?_, ?_⟩
        · intro i hi1 hi2 hiv
          rcases Nat.lt_succ_iff_lt_or_eq.mp (Nat.lt_succ_of_le hi2) with h | h
          · exact absurd ⟨i, hi1, by omega, hiv⟩ hne
          · simp [h]
        · intro i hi1 hi2 hiv
          exact absurd ⟨i, hi1, by omega, hiv⟩ hne
      · left
        rw [if_neg (by rintro ⟨_, hb⟩; exact hc hb)] at hstep
        refine ⟨?_, hstep⟩
        rintro ⟨i, hi1, hi2, hiv⟩
        rcases Nat.lt_succ_iff_lt_or_eq.mp (Nat.lt_succ_of_le hi2) with h | h
        · exact hne ⟨i, hi1, by omega, hiv⟩
        · rw [h] at hiv; exact hc hiv
    · right
      rw [hp] at hstep
      by_cases hc : A2 w < A2 (L + 1) ∧ A2 (L + 1) < v
      · rw [if_pos (by exact ⟨hc.1, hc.2⟩)] at hstep
        refine ⟨L + 1, hstep, by omega, le_refl _, hc.2, ?_, ?_⟩
        · intro i hi1 hi2 hiv
          rcases Nat.lt_succ_iff_lt_or_eq.mp (Nat.lt_succ_of_le hi2) with h | h
          · exact le_of_lt (lt_of_le_of_lt (hmax i hi1 (by omega) hiv) hc.1)
          · simp [h]
        · intro i hi1 hi2 hiv
          exact lt_of_le_of_lt (hmax i hi1 (by omega) hiv) hc.1
      · rw [if_neg (fun hq => hc ⟨hq.1, hq.2⟩)] at hstep
        refine ⟨w, hstep, h1, by omega, hv, ?_, hstrict⟩
        intro i hi1 hi2 hiv
        rcases Nat.lt_succ_iff_lt_or_eq.mp (Nat.lt_succ_of_le hi2) with h | h
        · exact hmax i hi1 (by omega) hiv
        · rw [h]
          rw [h] at hiv
          by_contra hlt
          exact hc ⟨lt_of_not_le hlt, hiv⟩

/-- After the seed and any number of passes, `w` is a valid 1-based index. -/
theorem findEigLoop_w_range (A2 : Vec) (h0 : ∀ i, 0 ≤ A2 i) (L : Nat) (hL : 1 ≤ L) :
    ∀ num, ∃ w : Nat, (findEigLoop A2 L num).2 = (w : Int) ∧ 1 ≤ w ∧ w ≤ L := by
  intro num
  induction num with
  | zero =>
    obtain ⟨w, hw, h1, h2, _, _⟩ := seedAux_spec A2 h0 L hL
    exact ⟨w, by rw [show findEigLoop A2 L 0 = seedAux A2 L from rfl, hw], h1, h2⟩
  | succ num ih =>
    obtain ⟨w, hw, h1, h2⟩ := ih
    show ∃ w2 : Nat,
      (dispAux A2 (findEigLoop A2 L num).1 (findEigLoop A2 L num).2 L).2 = (w2 : Int) ∧ _ ∧ _
    rcases dispAux_spec A2 h0 (findEigLoop A2 L num).1 (findEigLoop A2 L num).2 L with
      ⟨_, hp⟩ | ⟨w2, hp, hb1, hb2, _, _, _⟩
    · exact ⟨w, by rw [hp, hw], h1, h2⟩
    · exact ⟨w2, by rw [hp], hb1, hb2⟩

/-- C9: `findEig` never returns an out-of-range index: for every length
`L ≥ 1` and every `num` (including `num ≥ L`) the returned 0-based value
lies in `[0, L−1]` — the seeding pass always assigns the pick and each
displacement pass leaves it unchanged when nothing qualifies. -/
theorem C9_findEig_in_range (num L : Nat) (DR DI : Vec) (hL : 1 ≤ L) :
    0 ≤ findEig num L DR DI ∧ findEig num L DR DI ≤ (L : Int) - 1 := by
  obtain ⟨w, hw, h1, h2⟩ :=
    findEigLoop_w_range (findEigA2 DR DI) (findEigA2_nonneg DR DI) L hL num
  unfold findEig
  rw [hw]
  omega

/-- Witness for C9 at `L = 2`, `num = 5 ≥ L`. -/
theorem C9_findEig_in_range_witness :
    0 ≤ findEig 5 2 (fun _ => 1) (fun _ => 0) ∧
    findEig 5 2 (fun _ => 1) (fun _ => 0) ≤ (2 : Int) - 1 :=
  C9_findEig_in_range 5 2 (fun _ => 1) (fun _ => 0) (by norm_num)

/-- The state after the seed and `num` displacement passes, when at least
`num + 1` distinct values exist: the value is the `num`-th largest
distinct value (exactly `num` distinct values exceed it) and `w` is its
first 1-based index. -/
theorem findEigLoop_spec (A2 : Vec) (h0 : ∀ i, 0 ≤ A2 i) (L : Nat) (hL : 1 ≤ L) :
    ∀ num, num < (valsFinset A2 L).card →
    ∃ w : Nat, findEigLoop A2 L num = (A2 w, (w : Int)) ∧ 1 ≤ w ∧ w ≤ L ∧
      ((valsFinset A2 L).filter (fun x => A2 w < x)).card = num ∧
      (∀ i, 1 ≤ i → i < w → A2 i ≠ A2 w) := by
  intro num
  induction num with
  | zero =>
    intro _
    obtain ⟨w, hw, h1, h2, hmax, hstrict⟩ := seedAux_spec A2 h0 L hL
    refine ⟨w, hw, h1, h2, ?_, fun i hi1 hi2 => ne_of_lt (hstrict i hi1 hi2)⟩
    rw [Finset.card_eq_zero, Finset.filter_eq_empty_iff]
    intro x hx
    obtain ⟨i, hi1, hi2, rfl⟩ := mem_valsFinset.mp hx
    exact not_lt.mpr (hmax i hi1 hi2)
  | succ num ih =>
    intro hcard
    obtain ⟨w, hw, h1, h2, hfil, _⟩ := ih (by omega)
    have hbelow : ∃ i, 1 ≤ i ∧ i ≤ L ∧ A2 i < A2 w := by
      by_contra hno
      push_neg at hno
      have hsub : (valsFinset A2 L).filter (fun x => ¬A2 w < x) ⊆ {A2 w} := by
        intro x hx
        rw [Finset.mem_filter] at hx
        obtain ⟨i, hi1, hi2, rfl⟩ := mem_valsFinset.mp hx.1
        have hge := hno i hi1 hi2
        simp [le_antisymm (not_lt.mp hx.2) hge]
      have hle := Finset.card_le_card hsub
      have hsum := Finset.filter_card_add_filter_neg_card_eq_card
        (s := valsFinset A2 L) (p := fun x => A2 w < x)
      rw [Finset.card_singleton] at hle
      omega
    rcases dispAux_spec A2 h0 (A2 w) ((w : Nat) : Int) L with
      ⟨hne, _⟩ | ⟨w2, hp, hb1, hb2, hbv, hbmax, hbstrict⟩
    · exact absurd hbelow hne
    · refine ⟨w2, ?_, hb1, hb2, ?_, ?_⟩
      · show dispAux A2 (findEigLoop A2 L num).1 (findEigLoop A2 L num).2 L = _
        rw [hw]
        exact hp
      · have hins : (valsFinset A2 L).filter (fun x => A2 w2 < x)
            = insert (A2 w) ((valsFinset A2 L).filter (fun x => A2 w < x)) := by
          ext x
          simp only [Finset.mem_filter, Finset.mem_insert]
          constructor
          · rintro ⟨hxv, hxlt⟩
            rcases lt_trichotomy x (A2 w) with h | h | h
            · obtain ⟨i, hi1, hi2, rfl⟩ := mem_valsFinset.mp hxv
              exact absurd hxlt (not_lt.mpr (hbmax i hi1 hi2 h))
            · exact Or.inl h
            · exact Or.inr ⟨hxv, h⟩
          · rintro (rfl | ⟨hxv, hxlt⟩)
            · exact ⟨mem_valsFinset.mpr ⟨w, h1, h2, rfl⟩, hbv⟩
            · exact ⟨hxv, lt_trans hbv hxlt⟩
        rw [hins, Finset.card_insert_of_not_mem (by simp [Finset.mem_filter]), hfil]
      · intro i hi1 hi2
        by_cases hlt : A2 i < A2 w
        · exact ne_of_lt (hbstrict i hi1 hi2 hlt)
        · exact ne_of_gt (lt_of_lt_of_le hbv (not_lt.mp hlt))

/-- C4: when at least `num + 1` distinct (squared) moduli exist,
`findEig num DR DI` returns `w − 1` for the unique first 1-based index `w`
whose squared modulus `DR(w)² + DI(w)²` is the `num`-th largest distinct
squared modulus: exactly `num` distinct squared moduli exceed it, and
every earlier index carries a different squared modulus, so on exact
modulus ties the earlier index wins (for `num = 0` this is the first index
attaining the maximal modulus).  Ordering by squared modulus coincides
with ordering by modulus `√(DR² + DI²)`. -/
theorem C4_findEig_nth_largest (num L : Nat) (DR DI : Vec) (hL : 1 ≤ L)
    (hnum : num < (valsFinset (findEigA2 DR DI) L).card) :
    ∃ w : Nat, findEig num L DR DI = (w : Int) - 1 ∧ 1 ≤ w ∧ w ≤ L ∧
      ((valsFinset (findEigA2 DR DI) L).filter
        (fun x => findEigA2 DR DI w < x)).card = num ∧
      (∀ i, 1 ≤ i → i < w → findEigA2 DR DI i ≠ findEigA2 DR DI w) := by
  obtain ⟨w, hw, h1, h2, hfil, hfirst⟩ :=
    findEigLoop_spec (findEigA2 DR DI) (findEigA2_nonneg DR DI) L hL num hnum
  refine ⟨w, ?_, h1, h2, hfil, hfirst⟩
  unfold findEig
  rw [hw]

/-- Witness for C4: `L = 1`, `num = 0`, `DR ≡ 2`, `DI ≡ 0`. -/
theorem C4_findEig_nth_largest_witness :
    ∃ w : Nat, findEig 0 1 (fun _ => 2) (fun _ => 0) = (w : Int) - 1 ∧ 1 ≤ w ∧ w ≤ 1 ∧
      ((valsFinset (findEigA2 (fun _ => 2) (fun _ => 0)) 1).filter
        (fun x => findEigA2 (fun _ => 2) (fun _ => 0) w < x)).card = 0 ∧
      (∀ i, 1 ≤ i → i < w →
        findEigA2 (fun _ => 2) (fun _ => 0) i ≠ findEigA2 (fun _ => 2) (fun _ => 0) w) :=
  C4_findEig_nth_largest 0 1 (fun _ => 2) (fun _ => 0) (le_refl 1)
    (by norm_num [valsFinset, oneTo])

/-!  ### The post-loop harvest (C3) -/

theorem getD_set_ne {α : Type} (l : List α) (i j : Nat) (v d : α) (h : i ≠ j) :
    (l.set i v).getD j d = l.getD j d := by
  induction l generalizing i j with
  | nil => rfl
  | cons a tl ih =>
    cases i with
    | zero =>
      cases j with
      | zero => exact absurd rfl h
      | succ j => rfl
    | succ i =>
      cases j with
      | zero => rfl
      | succ j => exact ih i j (by omega)

theorem getD_set_self {α : Type} (l : List α) (i : Nat) (v d : α) (h : i < l.length) :
    (l.set i v).getD i d = v := by
  induction l generalizing i with
  | nil => simp at h
  | cons a tl ih =>
    cases i with
    | zero => rfl
    | succ i => exact ih i (by simpa using h)

theorem length_set_eq {α : Type} (l : List α) (i : Nat) (v : α) :
    (l.set i v).length = l.length := List.length_set l i v

/-- The `phi` component written by one harvest step is the synthesis from
column `1 + t`. -/
theorem harvestWrite_phi [Inhabited T] (ctx : DavCtx T) (st : LoopState T) (j : Nat)
    (acc : List CQ × List T × List Bool) :
    harvestWrite ctx st j acc =
      (acc.1.set j (st.D (1 + j), st.DI (1 + j)),
       acc.2.1.set j (ritzSynthCol ctx.ops st.UR st.UI st.urN st.uiN st.V (1 + st.t)),
       acc.2.2.set j true) := rfl

/-- Harvest writes at indices `≥ j0` leave earlier indices untouched. -/
theorem harvestFrom_preserve [Inhabited T] (ctx : DavCtx T) (st : LoopState T) :
    ∀ fuel j0 acc j, j < j0 →
      (harvestFrom ctx st j0 fuel acc).1.getD j (0, 0) = acc.1.getD j (0, 0) ∧
      (harvestFrom ctx st j0 fuel acc).2.1.getD j default = acc.2.1.getD j default := by
  intro fuel
  induction fuel with
  | zero => intro j0 acc j _; exact ⟨rfl, rfl⟩
  | succ fuel ih =>
    intro j0 acc j hj
    have h2 := ih (j0 + 1) (harvestWrite ctx st j0 acc) j (by omega)
    refine ⟨h2.1.trans ?_, h2.2.trans ?_⟩
    · rw [harvestWrite_phi]
      exact getD_set_ne _ _ _ _ _ (by omega)
    · rw [harvestWrite_phi]
      exact getD_set_ne _ _ _ _ _ (by omega)

/-- Every index in the harvested range receives `(D(1+j), DI(1+j))` and
the synthesis from column `1 + t`. -/
theorem harvestFrom_get [Inhabited T] (ctx : DavCtx T) (st : LoopState T) :
    ∀ fuel j0 acc j, j0 ≤ j → j < j0 + fuel →
      j < acc.1.length → j < acc.2.1.length →
      (harvestFrom ctx st j0 fuel acc).1.getD j (0, 0) = (st.D (1 + j), st.DI (1 + j)) ∧
      (harvestFrom ctx st j0 fuel acc).2.1.getD j default
        = ritzSynthCol ctx.ops st.UR st.UI st.urN st.uiN st.V (1 + st.t) := by
  intro fuel
  induction fuel with
  | zero => intro j0 acc j h1 h2; omega
  | succ fuel ih =>
    intro j0 acc j h1 h2 hl1 hl2
    by_cases hj : j = j0
    · subst hj
      have hpres := harvestFrom_preserve ctx st fuel (j + 1) (harvestWrite ctx st j acc) j
        (by omega)
      show (harvestFrom ctx st (j + 1) fuel (harvestWrite ctx st j acc)).1.getD j (0, 0)
          = _ ∧ _
      refine ⟨hpres.1.trans ?_, hpres.2.trans ?_⟩
      · rw [harvestWrite_phi]
        exact getD_set_self _ _ _ _ hl1
      · rw [harvestWrite_phi]
        exact getD_set_self _ _ _ _ hl2
    · have := ih (j0 + 1) (harvestWrite ctx st j0 acc) j (by omega) (by omega)
        (by rw [harvestWrite_phi]; simpa using hl1)
        (by rw [harvestWrite_phi]; simpa using hl2)
      exact this

/-- C3, corrected: after the loop exits with final target `t`, for every
remaining `t < j < nget` the harvested eigenvalue is `(D(1+j), DI(1+j))`
as the claim states, but the harvested vector `phi[j]` is synthesized from
column `1 + t` — the final target's column — not from column `1 + j`:
`phi[j] = Σₖ U[k,t]·V[k]` (imaginary part added when column `1 + t` of
`UI` is nonzero), the same vector for every remaining `j`. -/
theorem C3_harvest_uses_target_column [Inhabited T] (ctx : DavCtx T) (st : LoopState T)
    (j : Nat) (hj1 : st.t < j) (hj2 : j < ctx.nget)
    (hl1 : j < st.eigs.length) (hl2 : j < st.phi.length) :
    (finish ctx st).eigs.getD j (0, 0) = (st.D (1 + j), st.DI (1 + j)) ∧
    (finish ctx st).phi.getD j default
      = ritzSynthCol ctx.ops st.UR st.UI st.urN st.uiN st.V (1 + st.t) := by
  unfold finish
  exact harvestFrom_get ctx st (ctx.nget - (st.t + 1)) (st.t + 1)
    (st.eigs, st.phi, st.phiW) j (by omega) (by omega) hl1 hl2

/-- Concrete harvest data refuting the claim as stated: `t = 0`,
`nget = 2`, `UR = [[1, 2], [3, 4]]`, `UI = 0`, `V[0] = e₀`, `V[1] = e₁`. -/
def c3UR : Mat := fun i j =>
  if i = 1 ∧ j = 1 then 1 else if i = 1 ∧ j = 2 then 2
  else if i = 2 ∧ j = 1 then 3 else if i = 2 ∧ j = 2 then 4 else 0

def c3A : BigMatrix (List CQ) := { product := id, size := 2, diag := none }

def c3ctx : DavCtx (List CQ) :=
  { ops := vops, dense := denseZero, A := c3A, opts := {}, nget := 2,
    actualMaxIter := 0, Adiag := none, initEn := 0 }

def c3st : LoopState (List CQ) :=
  { V := fun k => if k = 0 then rvec [1, 0] else if k = 1 then rvec [0, 1] else [],
    AV := fun _ => [], MR := zeroMat, MI := zeroMat,
    D := zeroVec, DI := zeroVec, UR := c3UR, UI := zeroMat,
    urN := 2, uiN := 0, t := 0, lastLambda := (1000, 0),
    eigs := [(0, 0), (0, 0)], phi := [rvec [1, 0], rvec [0, 1]],
    phiW := [false, false], complexDiag := false, iter := 0, qnorm := 0 }

/-- C3 counterexample: at the concrete harvest state, the returned
`phi[1]` is `UR(1,1)·V[0] + UR(2,1)·V[1] = (1, 3)` (column `1 + t = 1`),
while the claim's formula `Σₖ U[k,1]·V[k]` with column `1 + j = 2` gives
`(2, 4)`. -/
theorem C3_harvest_counterexample :
    (finish c3ctx c3st).phi.getD 1 default = rvec [1, 3] ∧
    ritzSynthCol vops c3UR zeroMat 2 0 (c3st.V) 2 = rvec [2, 4] ∧
    (finish c3ctx c3st).phi.getD 1 default
      ≠ ritzSynthCol vops c3UR zeroMat 2 0 (c3st.V) 2 := by
  refine ⟨?_, ?_, ?_⟩ <;>
    norm_num [finish, harvestFrom, harvestWrite, ritzSynthCol, accumTerms, sumOneTo,
      oneTo, List.range_succ, c3ctx, c3st, c3UR, vops, rvec, cadd, cmul, sqrtGt, approx0,
      zeroMat, zeroVec, List.zipWith, Prod.ext_iff]

/-- Witness for the corrected C3 at the concrete harvest state. -/
theorem C3_harvest_witness :
    (finish c3ctx c3st).eigs.getD 1 (0, 0) = (c3st.D 2, c3st.DI 2) ∧
    (finish c3ctx c3st).phi.getD 1 default
      = ritzSynthCol c3ctx.ops c3st.UR c3st.UI c3st.urN c3st.uiN c3st.V (1 + c3st.t) :=
  C3_harvest_uses_target_column c3ctx c3st 1 (by norm_num [c3st]) (by norm_num [c3ctx])
    (by norm_num [c3st]) (by norm_num [c3st])

/-!  ### Input checks of `complexDavidson` (C5) -/

/-- When no guess has zero norm, the normalization loop succeeds and scales
each guess by the reciprocal of its norm. -/
theorem normalizeGuesses_ok (ops : TensorOps T) :
    ∀ l : List T, (∀ x ∈ l, ops.norm x ≠ 0) →
      normalizeGuesses ops l = .ok (l.map fun x => ops.smul (1 / ops.norm x, 0) x) := by
  intro l
  induction l with
  | nil => intro _; rfl
  | cons x xs ih =>
    intro h
    show (if ops.norm x = 0 then _ else _) = _
    rw [if_neg (h x (List.mem_cons_self x xs)), ih (fun y hy => h y (List.mem_cons_of_mem x hy))]
    rfl

/-- A zero-norm guess makes the normalization loop abort. -/
theorem normalizeGuesses_err (ops : TensorOps T) :
    ∀ l : List T, (∃ x ∈ l, ops.norm x = 0) →
      normalizeGuesses ops l = .error "norm of 0 in davidson" := by
  intro l
  induction l with
  | nil => rintro ⟨x, hx, _⟩; simp at hx
  | cons x xs ih =>
    rintro ⟨y, hy, hn⟩
    show (if ops.norm x = 0 then _ else _) = _
    rcases List.mem_cons.mp hy with rfl | hy2
    · rw [if_pos hn]
    · by_cases hx : ops.norm x = 0
      · rw [if_pos hx]
      · rw [if_neg hx, ih ⟨y, hy2, hn⟩]

/-- With `DebugLevel < 3` the expansion phase never raises the fatal
normalization assertion. -/
theorem expandStep_no_err (ctx : DavCtx T) (hd : ctx.opts.debugLevel < 3)
    (ii : Nat) (st : LoopState T) (q : T) (lambda : CQ) (e : String) :
    expandStep ctx ii st q lambda ≠ .err e := by
  unfold expandStep
  dsimp only
  cases hgs : gsLoop ctx.ops st.V (ii + 1) ctx.A.size 8 0 1
      (match ctx.Adiag with
       | some adiag => ctx.ops.divBy q (ctx.ops.mapElems (davidsonPrecond lambda.1) adiag)
       | none => q) with
  | bail => exact fun h => StepOut.noConfusion h
  | ok q2 =>
    dsimp only
    rw [if_neg (fun hcon => absurd hcon.1 (not_le.mpr hd))]
    exact fun h => StepOut.noConfusion h

/-- With `DebugLevel < 3` the outer loop always returns a result. -/
theorem davLoop_no_err (ctx : DavCtx T) (hd : ctx.opts.debugLevel < 3) :
    ∀ fuel ii st, ∃ r, davLoop ctx fuel ii st = .ok r := by
  intro fuel
  induction fuel with
  | zero => intro ii st; exact ⟨finish ctx st, rfl⟩
  | succ fuel ih =>
    intro ii st
    have key : ∀ (stx : LoopState T) (qx : T) (lx : CQ), ∃ r,
        (match expandStep ctx ii stx qx lx with
         | .err e => (.error e : Except String (DavResult T))
         | .done st3 => .ok (finish ctx st3)
         | .next st3 => davLoop ctx fuel (ii + 1) st3) = .ok r := by
      intro stx qx lx
      cases hex : expandStep ctx ii stx qx lx with
      | err e => exact absurd hex (expandStep_no_err ctx hd ii stx qx lx e)
      | done st3 => exact ⟨_, rfl⟩
      | next st3 => exact ih (ii + 1) st3
    simp only [davLoop]
    cases hct : convergenceTargeting ctx.opts.errGoal ctx.opts.minIter ctx.actualMaxIter
        ctx.nget (ii : Int)
        ((if ii = 0 then seedStep ctx st else projectStep ctx ii st)).1.t
        (ctx.ops.norm ((if ii = 0 then seedStep ctx st else projectStep ctx ii st)).2.1)
        ((if ii = 0 then seedStep ctx st else projectStep ctx ii st)).2.2
        ((if ii = 0 then seedStep ctx st else projectStep ctx ii st)).1.lastLambda with
    | exitDone => exact ⟨_, rfl⟩
    | advanced t2 ll2 => exact key _ _ _
    | noBreak ll2 => exact key _ _ _

/-- `davLoop` never returns an error when `DebugLevel < 3`. -/
theorem davLoop_ne_error (ctx : DavCtx T) (hd : ctx.opts.debugLevel < 3)
    (fuel ii : Nat) (st : LoopState T) (e : String) :
    davLoop ctx fuel ii st ≠ .error e := by
  obtain ⟨r, hr⟩ := davLoop_no_err ctx hd fuel ii st
  rw [hr]
  exact fun h => Except.noConfusion h

/-- C5, corrected: at `DebugLevel < 3` a `complexDavidson` invocation
aborts with a fatal error exactly when the guess list is empty, some guess
has zero norm, or the FIRST guess has dimension different from
`A.size()` — the source checks `phi.front()` only, so a dimension mismatch
in a later guess does not abort.  When none of these hold, no input check
fires and the call returns a result. -/
theorem C5_input_checks [Inhabited T] (ops : TensorOps T) (dense : DenseSolvers)
    (A : BigMatrix T) (phi0 : List T) (opts : DavOpts) (hd : opts.debugLevel < 3) :
    (∃ e, complexDavidson ops dense A phi0 opts = .error e) ↔
      (phi0.length = 0 ∨ (∃ x ∈ phi0, ops.norm x = 0) ∨
        ops.dim (ops.smul (1 / ops.norm (phi0.headD default), 0) (phi0.headD default))
          ≠ A.size) := by
  cases phi0 with
  | nil => exact iff_of_true ⟨_, rfl⟩ (Or.inl rfl)
  | cons x xs =>
    unfold complexDavidson
    rw [if_neg (by simp)]
    dsimp only [List.headD]
    by_cases hz : ∃ y ∈ x :: xs, ops.norm y = 0
    · rw [normalizeGuesses_err ops _ hz]
      exact iff_of_true ⟨_, rfl⟩ (Or.inr (Or.inl hz))
    · push_neg at hz
      rw [normalizeGuesses_ok ops _ hz]
      dsimp only [List.map, List.headD]
      by_cases hdim : ops.dim (ops.smul (1 / ops.norm x, 0) x) ≠ A.size
      · rw [if_pos hdim]
        exact iff_of_true ⟨_, rfl⟩ (Or.inr (Or.inr hdim))
      · rw [if_neg hdim]
        refine iff_of_false ?_ ?_
        · rintro ⟨e, he⟩
          exact absurd he (davLoop_ne_error _ hd _ _ _ _)
        · rintro (h | h | h)
          · simp at h
          · exact absurd h (by push_neg; exact hz)
          · exact hdim h

/-!  ### Values of `ratSqrt` used in concrete runs -/

set_option maxRecDepth 8000 in
theorem ratSqrt_zero : ratSqrt 0 = 0 := by
  rw [ratSqrt, show ((0 : ℚ).num.toNat) = 0 from rfl, show ((0 : ℚ).den) = 1 from rfl]
  norm_num [isqrtFuel]

set_option maxRecDepth 8000 in
theorem ratSqrt_one : ratSqrt 1 = 1 := by
  rw [ratSqrt, show ((1 : ℚ).num.toNat) = 1 from rfl, show ((1 : ℚ).den) = 1 from rfl]
  norm_num [isqrtFuel]

set_option maxRecDepth 8000 in
theorem ratSqrt_25 : ratSqrt 25 = 5 := by
  rw [ratSqrt, show ((25 : ℚ).num.toNat) = 25 from rfl, show ((25 : ℚ).den) = 1 from rfl]
  norm_num [isqrtFuel]

set_option maxRecDepth 8000 in
theorem ratSqrt_400 : ratSqrt 400 = 20 := by
  rw [ratSqrt, show ((400 : ℚ).num.toNat) = 400 from rfl, show ((400 : ℚ).den) = 1 from rfl]
  norm_num [isqrtFuel]

set_option maxRecDepth 8000 in
theorem ratSqrt_14400 : ratSqrt 14400 = 120 := by
  rw [ratSqrt, show ((14400 : ℚ).num.toNat) = 14400 from rfl,
    show ((14400 : ℚ).den) = 1 from rfl]
  norm_num [isqrtFuel]

set_option maxRecDepth 8000 in
theorem ratSqrt_144400 : ratSqrt 144400 = 380 := by
  rw [ratSqrt, show ((144400 : ℚ).num.toNat) = 144400 from rfl,
    show ((144400 : ℚ).den) = 1 from rfl]
  norm_num [isqrtFuel]

/-- Size-1 operator used in concrete driver runs. -/
def c5A : BigMatrix (List CQ) := { product := id, size := 1, diag := none }

/-- C5 counterexample: with guesses `[1]` (dimension 1) and `[1,0,0]`
(dimension 3) on a size-1 operator, the second guess's dimension differs
from `A.size()`, yet `complexDavidson` does not abort: the source checks
only `phi.front()`. -/
theorem C5_counterexample :
    (∃ x ∈ [rvec [1], rvec [1, 0, 0]], vops.dim x ≠ c5A.size) ∧
    (∀ e, complexDavidson vops denseZero c5A [rvec [1], rvec [1, 0, 0]] { maxIter := 0 }
      ≠ .error e) := by
  constructor
  · exact ⟨rvec [1, 0, 0], by simp, by norm_num [vops, rvec, c5A]⟩
  · intro e
    unfold complexDavidson
    rw [if_neg (by simp)]
    rw [normalizeGuesses_ok vops _ (by
      intro y hy
      rcases List.mem_cons.mp hy with rfl | hy2
      · norm_num [vops, rvec, cnormSq, ratSqrt_one]
      · rcases List.mem_cons.mp hy2 with rfl | hy3
        · norm_num [vops, rvec, cnormSq, ratSqrt_one]
        · simp at hy3)]
    dsimp only [List.map, List.headD]
    rw [if_neg (by norm_num [vops, rvec, cnormSq, ratSqrt_one, c5A])]
    exact davLoop_ne_error _ (by norm_num) _ _ _ _

/-- Witness for the corrected C5: a zero-norm guess aborts. -/
theorem C5_input_checks_witness :
    ∃ e, complexDavidson vops denseZero c5A [rvec [0]] {} = .error e :=
  (C5_input_checks vops denseZero c5A [rvec [0]] {} (by norm_num)).mpr
    (Or.inr (Or.inl ⟨rvec [0], by simp, by norm_num [vops, rvec, cnormSq, ratSqrt_zero]⟩))

/-!  ### The `MaxIter = 0` run (C7) -/

/-- With `actual_maxiter = 0` the break test fires at the seed iteration
regardless of the residual, and since `ii < actual_maxiter` fails the
decision is the exit to post-processing. -/
theorem convergenceTargeting_seed_exit (ctx : DavCtx T) (ham : ctx.actualMaxIter = 0)
    (t : Nat) (qn : ℚ) (lam ll : CQ) :
    convergenceTargeting ctx.opts.errGoal ctx.opts.minIter ctx.actualMaxIter ctx.nget
      ((0 : Nat) : Int) t qn lam ll = .exitDone := by
  unfold convergenceTargeting
  rw [ham]
  split_ifs with h1 h2
  · exact absurd h2.2 (by norm_num)
  · rfl
  · exact absurd (Or.inr (Or.inr (by norm_num))) h1

/-- One-iteration loop with `actual_maxiter = 0`: the seed step runs, the
break fires, and the run exits to the harvest. -/
theorem davLoop_seed_exit (ctx : DavCtx T) (st : LoopState T) (ham : ctx.actualMaxIter = 0) :
    davLoop ctx 1 0 st =
      .ok (finish ctx
        { (seedStep ctx st).1 with
          qnorm := ctx.ops.norm (seedStep ctx st).2.1,
          lastLambda := (seedStep ctx st).2.2 }) := by
  simp only [davLoop]
  rw [convergenceTargeting_seed_exit ctx ham]
  rfl

/-- A `MaxIter = 0` call with a single valid guess returns the initial
Rayleigh quotient without any subspace expansion. -/
theorem complexDavidson_maxIter_zero [Inhabited T] (ops : TensorOps T)
    (dense : DenseSolvers) (A : BigMatrix T) (phi : T) (opts : DavOpts)
    (hmx : opts.maxIter = 0) (hsz : 1 ≤ A.size) (hnrm : ops.norm phi ≠ 0)
    (hdim : ops.dim (ops.smul (1 / ops.norm phi, 0) phi) = A.size) :
    complexDavidson ops dense A [phi] opts =
      .ok { eigs := [((ops.braket (ops.smul (1 / ops.norm phi, 0) phi)
                (A.product (ops.smul (1 / ops.norm phi, 0) phi))).1, 0)],
            phi := [ops.smul (1 / ops.norm phi, 0) phi],
            phiW := [false], iter := 0 } := by
  unfold complexDavidson
  rw [if_neg (by simp)]
  rw [normalizeGuesses_ok ops _ (by
    intro y hy
    rcases List.mem_cons.mp hy with rfl | h
    · exact hnrm
    · simp at h)]
  dsimp only [List.map, List.headD]
  rw [if_neg (fun hcon => hcon hdim)]
  have ham : min opts.maxIter ((A.size : Int) - 1) = 0 := by
    rw [hmx]
    omega
  rw [ham]
  rw [show ((0 : Int) + 1).toNat = 1 from rfl]
  rw [davLoop_seed_exit _ _ rfl]
  rfl

/-- C7: for `davidson` invoked with `MaxIter = 0` and a single guess `φ`
of nonzero norm and matching dimension on an operator with `A.size ≥ 1`,
`actual_maxiter = min(0, size−1) = 0`, the break `ii = actual_maxiter`
fires at the seed iteration, no subspace expansion occurs (the iteration
counter stays 0 and `phi[0]` receives no Ritz write), and the returned
eigenvalue is the seed Rayleigh quotient `Re⟨V0|A·V0⟩` with
`V0 = φ/‖φ‖`. -/
theorem C7_maxiter_zero_rayleigh [Inhabited T] (ops : TensorOps T)
    (dense : DenseSolvers) (A : BigMatrix T) (phi : T) (opts : DavOpts)
    (hmx : opts.maxIter = 0) (hsz : 1 ≤ A.size) (hnrm : ops.norm phi ≠ 0)
    (hdim : ops.dim (ops.smul (1 / ops.norm phi, 0) phi) = A.size) :
    davidson ops dense A phi opts =
      .ok ((ops.braket (ops.smul (1 / ops.norm phi, 0) phi)
            (A.product (ops.smul (1 / ops.norm phi, 0) phi))).1,
           ops.smul (1 / ops.norm phi, 0) phi) ∧
    complexDavidson ops dense A [phi] opts =
      .ok { eigs := [((ops.braket (ops.smul (1 / ops.norm phi, 0) phi)
                (A.product (ops.smul (1 / ops.norm phi, 0) phi))).1, 0)],
            phi := [ops.smul (1 / ops.norm phi, 0) phi],
            phiW := [false], iter := 0 } := by
  have h2 := complexDavidson_maxIter_zero ops dense A phi opts hmx hsz hnrm hdim
  refine ⟨?_, h2⟩
  unfold davidson davidsonVec
  rw [h2]
  rfl

/-- Witness for C7: the identity operator on dimension 1 with guess `[1]`;
the returned eigenvalue is the Rayleigh quotient `⟨V0|A·V0⟩ = 1`. -/
theorem C7_maxiter_zero_rayleigh_witness :
    davidson vops denseZero c5A (rvec [1]) { maxIter := 0 } =
      .ok ((vops.braket (vops.smul (1 / vops.norm (rvec [1]), 0) (rvec [1]))
            (c5A.product (vops.smul (1 / vops.norm (rvec [1]), 0) (rvec [1])))).1,
           vops.smul (1 / vops.norm (rvec [1]), 0) (rvec [1])) ∧
    complexDavidson vops denseZero c5A [rvec [1]] { maxIter := 0 } =
      .ok { eigs := [((vops.braket (vops.smul (1 / vops.norm (rvec [1]), 0) (rvec [1]))
                (c5A.product (vops.smul (1 / vops.norm (rvec [1]), 0) (rvec [1])))).1, 0)],
            phi := [vops.smul (1 / vops.norm (rvec [1]), 0) (rvec [1])],
            phiW := [false], iter := 0 } :=
  C7_maxiter_zero_rayleigh vops denseZero c5A (rvec [1]) { maxIter := 0 } rfl
    (by norm_num [c5A])
    (by norm_num [vops, rvec, cnormSq, ratSqrt_one])
    (by norm_num [vops, rvec, c5A])

/-!  ### The frame property on the guess vectors (C10) -/

theorem getD_set_cases {α : Type} (l : List α) (i j : Nat) (v d : α) :
    (l.set i v).getD j d = if i = j ∧ i < l.length then v else l.getD j d := by
  by_cases hc : i = j ∧ i < l.length
  · rw [if_pos hc, ← hc.1, getD_set_self l i v d hc.2]
  · rw [if_neg hc]
    by_cases hij : i = j
    · subst hij
      have hlen : l.length ≤ i := by
        by_contra hcon
        exact hc ⟨rfl, by omega⟩
      rw [List.set_eq_of_length_le hlen]
    · exact getD_set_ne l i j v d hij

/-- A paired write `set t` on a value list and its ghost write-map: an
entry whose ghost stayed `false` kept its value. -/
theorem set_frame {α : Type} (l : List α) (lb : List Bool) (t j : Nat) (x : α) (d : α)
    (hlen : l.length = lb.length)
    (h : (lb.set t true).getD j false = false) :
    (l.set t x).getD j d = l.getD j d ∧ lb.getD j false = false := by
  rw [getD_set_cases] at h
  by_cases hc : t = j ∧ t < lb.length
  · rw [if_pos hc] at h
    exact absurd h (by simp)
  · rw [if_neg hc] at h
    refine ⟨?_, h⟩
    rw [getD_set_cases, if_neg (by rw [hlen]; exact hc)]

/-- The harvest preserves lengths and the value of every entry whose ghost
flag remains `false`. -/
theorem harvestFrom_frame [Inhabited T] (ctx : DavCtx T) (st : LoopState T) :
    ∀ fuel j0 (acc : List CQ × List T × List Bool),
      (harvestFrom ctx st j0 fuel acc).2.1.length = acc.2.1.length ∧
      (harvestFrom ctx st j0 fuel acc).2.2.length = acc.2.2.length ∧
      (acc.2.1.length = acc.2.2.length →
        ∀ j, (harvestFrom ctx st j0 fuel acc).2.2.getD j false = false →
          (harvestFrom ctx st j0 fuel acc).2.1.getD j default = acc.2.1.getD j default ∧
          acc.2.2.getD j false = false) := by
  intro fuel
  induction fuel with
  | zero => exact fun j0 acc => ⟨rfl, rfl, fun _ j hj => ⟨rfl, hj⟩⟩
  | succ fuel ih =>
    intro j0 acc
    obtain ⟨ihl1, ihl2, ihf⟩ := ih (j0 + 1) (harvestWrite ctx st j0 acc)
    have hstep : harvestFrom ctx st j0 (fuel + 1) acc
        = harvestFrom ctx st (j0 + 1) fuel (harvestWrite ctx st j0 acc) := rfl
    have hwl1 : (harvestWrite ctx st j0 acc).2.1.length = acc.2.1.length := by
      rw [harvestWrite_phi]
      exact length_set_eq _ _ _
    have hwl2 : (harvestWrite ctx st j0 acc).2.2.length = acc.2.2.length := by
      rw [harvestWrite_phi]
      exact length_set_eq _ _ _
    refine ⟨by rw [hstep, ihl1, hwl1], by rw [hstep, ihl2, hwl2], ?_⟩
    intro hlen j hj
    rw [hstep] at hj
    obtain ⟨ha, hb⟩ := ihf (by rw [hwl1, hwl2, hlen]) j hj
    rw [harvestWrite_phi] at ha hb
    obtain ⟨hc, hd⟩ := set_frame acc.2.1 acc.2.2 j0 j _ default hlen hb
    rw [hstep]
    exact ⟨ha.trans hc, hd⟩

/-- `projectStep` writes `phi` only at the current target and marks the
ghost flag there. -/
theorem projectStep_phi [Inhabited T] (ctx : DavCtx T) (ii : Nat) (st : LoopState T) :
    ∃ x, (projectStep ctx ii st).1.phi = st.phi.set st.t x ∧
      (projectStep ctx ii st).1.phiW = st.phiW.set st.t true := ⟨_, rfl, rfl⟩

/-- The expansion phase never touches `phi` or the ghost map. -/
theorem expandStep_phi (ctx : DavCtx T) (ii : Nat) (st : LoopState T) (q : T)
    (lambda : CQ) (st3 : LoopState T) :
    expandStep ctx ii st q lambda = .done st3 ∨ expandStep ctx ii st q lambda = .next st3 →
    st3.phi = st.phi ∧ st3.phiW = st.phiW := by
  unfold expandStep
  dsimp only
  cases hgs : gsLoop ctx.ops st.V (ii + 1) ctx.A.size 8 0 1
      (match ctx.Adiag with
       | some adiag => ctx.ops.divBy q (ctx.ops.mapElems (davidsonPrecond lambda.1) adiag)
       | none => q) with
  | bail =>
    dsimp only
    rintro (h | h)
    · cases h
      exact ⟨rfl, rfl⟩
    · cases h
  | ok q2 =>
    dsimp only
    by_cases hdbg : ctx.opts.debugLevel ≥ 3 ∧ ¬|ctx.ops.norm q2 - 1| ≤ gsEps
    · rw [if_pos hdbg]
      rintro (h | h) <;> cases h
    · rw [if_neg hdbg]
      rintro (h | h)
      · cases h
      · cases h
        exact ⟨rfl, rfl⟩

/-- Loop-level frame: any entry of `phi` whose ghost flag is `false` in
the result kept the value it had when the loop started. -/
theorem davLoop_frame [Inhabited T] (ctx : DavCtx T) :
    ∀ fuel ii (st : LoopState T) r, davLoop ctx fuel ii st = .ok r →
      st.phi.length = st.phiW.length →
      r.phi.length = st.phi.length ∧ r.phiW.length = st.phiW.length ∧
      ∀ j, r.phiW.getD j false = false →
        r.phi.getD j default = st.phi.getD j default ∧ st.phiW.getD j false = false := by
  intro fuel
  induction fuel with
  | zero =>
    intro ii st r hok hlen
    cases hok
    have hf := harvestFrom_frame ctx st (ctx.nget - (st.t + 1)) (st.t + 1)
      (st.eigs, st.phi, st.phiW)
    exact ⟨hf.1, hf.2.1, fun j hj => hf.2.2 hlen j hj⟩
  | succ fuel ih =>
    intro ii st r hok hlen
    -- effect of the seed or projection step on phi and the ghost map
    have hstep : ((if ii = 0 then seedStep ctx st else projectStep ctx ii st)).1.phi.length
          = st.phi.length ∧
        ((if ii = 0 then seedStep ctx st else projectStep ctx ii st)).1.phiW.length
          = st.phiW.length ∧
        ∀ j, ((if ii = 0 then seedStep ctx st else projectStep ctx ii st)).1.phiW.getD j false
            = false →
          ((if ii = 0 then seedStep ctx st else projectStep ctx ii st)).1.phi.getD j default
              = st.phi.getD j default ∧ st.phiW.getD j false = false := by
      by_cases h0 : ii = 0
      · rw [if_pos h0]
        exact ⟨rfl, rfl, fun j hj => ⟨rfl, hj⟩⟩
      · rw [if_neg h0]
        obtain ⟨x, h1, h2⟩ := projectStep_phi ctx ii st
        rw [h1, h2]
        exact ⟨length_set_eq _ _ _, length_set_eq _ _ _,
          fun j hj => set_frame st.phi st.phiW st.t j x default hlen hj⟩
    -- composing a state that exits through the harvest
    have hconc : ∀ (sty : LoopState T), r = finish ctx sty →
        sty.phi.length = st.phi.length →
        sty.phiW.length = st.phiW.length →
        (∀ j, sty.phiW.getD j false = false →
          sty.phi.getD j default = st.phi.getD j default ∧ st.phiW.getD j false = false) →
        r.phi.length = st.phi.length ∧ r.phiW.length = st.phiW.length ∧
        ∀ j, r.phiW.getD j false = false →
          r.phi.getD j default = st.phi.getD j default ∧ st.phiW.getD j false = false := by
      rintro sty rfl hl1 hl2 hfr
      have hf := harvestFrom_frame ctx sty (ctx.nget - (sty.t + 1)) (sty.t + 1)
        (sty.eigs, sty.phi, sty.phiW)
      refine ⟨hf.1.trans hl1, hf.2.1.trans hl2, fun j hj => ?_⟩
      obtain ⟨ha, hb⟩ := hf.2.2 (by rw [hl1, hl2, hlen]) j hj
      obtain ⟨hc, hd⟩ := hfr j hb
      exact ⟨ha.trans hc, hd⟩
    -- composing through the expansion phase
    have key : ∀ (stx : LoopState T) (qx : T) (lx : CQ),
        (match expandStep ctx ii stx qx lx with
         | .err e => (.error e : Except String (DavResult T))
         | .done st3 => .ok (finish ctx st3)
         | .next st3 => davLoop ctx fuel (ii + 1) st3) = .ok r →
        stx.phi.length = st.phi.length → stx.phiW.length = st.phiW.length →
        (∀ j, stx.phiW.getD j false = false →
          stx.phi.getD j default = st.phi.getD j default ∧ st.phiW.getD j false = false) →
        r.phi.length = st.phi.length ∧ r.phiW.length = st.phiW.length ∧
        ∀ j, r.phiW.getD j false = false →
          r.phi.getD j default = st.phi.getD j default ∧ st.phiW.getD j false = false := by
      intro stx qx lx hm hl1 hl2 hfr
      cases hex : expandStep ctx ii stx qx lx with
      | err e =>
        rw [hex] at hm
        exact Except.noConfusion hm
      | done st3 =>
        rw [hex] at hm
        obtain ⟨he1, he2⟩ := expandStep_phi ctx ii stx qx lx st3 (Or.inl hex)
        injection hm with hm2
        refine hconc st3 hm2.symm ?_ ?_ ?_
        · rw [he1, hl1]
        · rw [he2, hl2]
        · intro j hj
          rw [he2] at hj
          obtain ⟨hc, hd⟩ := hfr j hj
          rw [he1]
          exact ⟨hc, hd⟩
      | next st3 =>
        rw [hex] at hm
        obtain ⟨he1, he2⟩ := expandStep_phi ctx ii stx qx lx st3 (Or.inr hex)
        obtain ⟨hr1, hr2, hr3⟩ := ih (ii + 1) st3 r hm
          (by rw [he1, he2, hl1, hl2, hlen])
        refine ⟨by rw [hr1, he1, hl1], by rw [hr2, he2, hl2], fun j hj => ?_⟩
        obtain ⟨ha, hb⟩ := hr3 j hj
        rw [he1] at ha
        rw [he2] at hb
        obtain ⟨hc, hd⟩ := hfr j hb
        exact ⟨ha.trans hc, hd⟩
    revert hok
    simp only [davLoop]
    cases hct : convergenceTargeting ctx.opts.errGoal ctx.opts.minIter ctx.actualMaxIter
        ctx.nget (ii : Int)
        ((if ii = 0 then seedStep ctx st else projectStep ctx ii st)).1.t
        (ctx.ops.norm ((if ii = 0 then seedStep ctx st else projectStep ctx ii st)).2.1)
        ((if ii = 0 then seedStep ctx st else projectStep ctx ii st)).2.2
        ((if ii = 0 then seedStep ctx st else projectStep ctx ii st)).1.lastLambda with
    | exitDone =>
      intro hok
      injection hok with hok2
      exact hconc _ hok2.symm hstep.1 hstep.2.1 hstep.2.2
    | advanced t2 ll2 =>
      intro hok
      exact key _ _ _ hok hstep.1 hstep.2.1 hstep.2.2
    | noBreak ll2 =>
      intro hok
      exact key _ _ _ hok hstep.1 hstep.2.1 hstep.2.2

theorem getD_map {α β : Type} (l : List α) (f : α → β) (j : Nat) (d : α) (d2 : β)
    (h : j < l.length) : (l.map f).getD j d2 = f (l.getD j d) := by
  induction l generalizing j with
  | nil => simp at h
  | cons a tl ih =>
    cases j with
    | zero => rfl
    | succ j => exact ih j (by simpa using h)

/-- C10: on a successful run, every guess was scaled in place to unit norm
(multiplied by `1/‖phi[j]‖`) at entry — `normalizeGuesses` maps every
entry, including targets never reached — and, apart from this scaling and
the Ritz-vector writes tracked by the ghost map `phiW`, no entry of the
guess list is modified: any index whose ghost flag is still `false` in the
result holds exactly its scaled initial value. -/
theorem C10_guess_frame [Inhabited T] (ops : TensorOps T) (dense : DenseSolvers)
    (A : BigMatrix T) (phi0 : List T) (opts : DavOpts) (r : DavResult T)
    (hok : complexDavidson ops dense A phi0 opts = .ok r) :
    normalizeGuesses ops phi0 = .ok (phi0.map fun x => ops.smul (1 / ops.norm x, 0) x) ∧
    r.phi.length = phi0.length ∧
    ∀ j, j < phi0.length → r.phiW.getD j false = false →
      r.phi.getD j default
        = ops.smul (1 / ops.norm (phi0.getD j default), 0) (phi0.getD j default) := by
  cases phi0 with
  | nil =>
    exact Except.noConfusion hok
  | cons x xs =>
    unfold complexDavidson at hok
    rw [if_neg (by simp)] at hok
    have hnz : ∀ y ∈ x :: xs, ops.norm y ≠ 0 := by
      by_contra hcon
      push_neg at hcon
      obtain ⟨y, hy, hn⟩ := hcon
      rw [normalizeGuesses_err ops _ ⟨y, hy, hn⟩] at hok
      exact Except.noConfusion hok
    rw [normalizeGuesses_ok ops _ hnz] at hok
    refine ⟨normalizeGuesses_ok ops _ hnz, ?_⟩
    dsimp only [List.map, List.headD] at hok
    by_cases hdim : ops.dim (ops.smul (1 / ops.norm x, 0) x) ≠ A.size
    · rw [if_pos hdim] at hok
      exact Except.noConfusion hok
    · rw [if_neg hdim] at hok
      obtain ⟨hL1, hL2, hFR⟩ := davLoop_frame _ _ 0 _ r hok (by simp)
      constructor
      · rw [hL1]
        simp
      · intro j hj hw
        obtain ⟨ha, _⟩ := hFR j hw
        rw [ha]
        exact getD_map (x :: xs) (fun y => ops.smul (1 / ops.norm y, 0) y) j default
          default hj

/-- Witness for C10: the `MaxIter = 0` run on dimension 1; the single
guess is never Ritz-written and ends as its scaled initial value. -/
theorem C10_guess_frame_witness :
    ∃ r : DavResult (List CQ),
      complexDavidson vops denseZero c5A [rvec [1]] { maxIter := 0 } = .ok r ∧
      r.phiW.getD 0 false = false ∧
      r.phi.getD 0 default = vops.smul (1 / vops.norm (rvec [1]), 0) (rvec [1]) := by
  have hok := complexDavidson_maxIter_zero vops denseZero c5A (rvec [1]) { maxIter := 0 }
    rfl (by norm_num [c5A]) (by norm_num [vops, rvec, cnormSq, ratSqrt_one])
    (by norm_num [vops, rvec, c5A])
  refine ⟨_, hok, rfl, ?_⟩
  exact (C10_guess_frame vops denseZero c5A [rvec [1]] _ _ hok).2.2 0 (by norm_num) rfl

/-!  ### The power method performs sequential deflation (C8)

The spec-side run below follows the amended claim's words: for each target
in order, normalize, then iterate at most 1000 steps of product, a
deflation sweep `v ← v − λⱼ·vecsⱼ·⟨vecsⱼ|v⟩` applied for `j < t` in
increasing order against the current partially deflated `v`, update
`λ ← ‖v‖`, normalize, and stop as soon as `|λ − λ_prev| < ErrGoal`; the
output pairs are appended in target order. -/

/-- Sequential deflation sweep over the already-converged pairs. -/
def pmSpecDeflate [Inhabited T] (ops : TensorOps T) (done : List (ℚ × T)) (v : T) : T :=
  done.foldl (fun v p => ops.add v (ops.smul (cmul (-p.1, 0) (ops.braket p.2 v)) p.2)) v

/-- Spec-side inner iteration for one target. -/
def pmSpecIter [Inhabited T] (ops : TensorOps T) (A : BigMatrix T) (errgoal : ℚ)
    (done : List (ℚ × T)) : Nat → T → ℚ → ℚ × T
  | 0, v, lam => (lam, v)
  | fuel + 1, v, lam =>
    let v1 := pmSpecDeflate ops done (A.product v)
    let lam1 := ops.norm v1
    let v2 := ops.smul (1 / lam1, 0) v1
    if |lam1 - lam| < errgoal then (lam1, v2)
    else pmSpecIter ops A errgoal done fuel v2 lam1

/-- Spec-side run: the list of converged `(λ, v)` pairs in target order. -/
def pmSpecList [Inhabited T] (ops : TensorOps T) (A : BigMatrix T) (errgoal : ℚ)
    (vecs : List T) : List (ℚ × T) :=
  vecs.foldl
    (fun done v =>
      done ++ [pmSpecIter ops A errgoal done 1000
        (ops.smul (1 / ops.norm v, 0) v) 1000])
    []

theorem getD_append_left {α : Type} (l1 l2 : List α) (j : Nat) (d : α)
    (h : j < l1.length) : (l1 ++ l2).getD j d = l1.getD j d := by
  induction l1 generalizing j with
  | nil => simp at h
  | cons a tl ih =>
    cases j with
    | zero => rfl
    | succ j => exact ih j (by simpa using h)

theorem getD_append_at {α : Type} (l1 l2 : List α) (t : Nat) (d : α)
    (h : l1.length = t) : (l1 ++ l2).getD t d = l2.getD 0 d := by
  induction l1 generalizing t with
  | nil => simp at h; subst h; rfl
  | cons a tl ih =>
    cases t with
    | zero => simp at h
    | succ t => exact ih t (by simpa using h)

theorem set_append_at {α : Type} (l1 l2 : List α) (t : Nat) (x : α)
    (h : l1.length = t) : (l1 ++ l2).set t x = l1 ++ l2.set 0 x := by
  induction l1 generalizing t with
  | nil => simp at h; subst h; rfl
  | cons a tl ih =>
    cases t with
    | zero => simp at h
    | succ t =>
      show a :: (tl ++ l2).set t x = a :: (tl ++ l2.set 0 x)
      rw [ih t (by simpa using h)]

theorem drop_eq_getD_cons {α : Type} (l : List α) (t : Nat) (d : α)
    (h : t < l.length) : l.drop t = l.getD t d :: l.drop (t + 1) := by
  induction l generalizing t with
  | nil => simp at h
  | cons a tl ih =>
    cases t with
    | zero => rfl
    | succ t => exact ih t (by simpa using h)

theorem take_succ_getD {α : Type} (l : List α) (t : Nat) (d : α)
    (h : t < l.length) : l.take (t + 1) = l.take t ++ [l.getD t d] := by
  induction l generalizing t with
  | nil => simp at h
  | cons a tl ih =>
    cases t with
    | zero => rfl
    | succ t =>
      show a :: tl.take (t + 1) = a :: (tl.take t ++ [tl.getD t d])
      rw [ih t (by simpa using h)]

theorem pmSpecList_length [Inhabited T] (ops : TensorOps T) (A : BigMatrix T)
    (errgoal : ℚ) (vecs : List T) : (pmSpecList ops A errgoal vecs).length = vecs.length := by
  unfold pmSpecList
  suffices h : ∀ (l : List T) (done : List (ℚ × T)),
      (l.foldl (fun done v => done ++ [pmSpecIter ops A errgoal done 1000
        (ops.smul (1 / ops.norm v, 0) v) 1000]) done).length = done.length + l.length by
    simpa using h vecs []
  intro l
  induction l with
  | nil => simp
  | cons x xs ih =>
    intro done
    rw [List.foldl_cons, ih]
    simp
    omega

/-- Folding a step over `range l.length` that reads `l` through `getD`
equals folding over `l` itself. -/
theorem foldl_range_getD {α β : Type} (dflt : α) (l : List α) (f : β → α → β) :
    ∀ (init : β), (List.range l.length).foldl (fun acc j => f acc (l.getD j dflt)) init
      = l.foldl f init := by
  induction l with
  | nil => intro init; rfl
  | cons a tl ih =>
    intro init
    rw [show (a :: tl).length = tl.length + 1 from rfl, List.range_succ_eq_map,
      List.foldl_cons, List.foldl_map]
    simp only [List.getD_cons_succ, List.getD_cons_zero]
    exact ih (f init a)

/-- The source's deflation loop agrees with the spec-side sweep when the
prefix of converged pairs matches. -/
theorem deflateSeq_eq_spec [Inhabited T] (ops : TensorOps T) (eigs : List ℚ)
    (vecs : List T) (done : List (ℚ × T)) (t : Nat) (hlen : done.length = t)
    (he : ∀ j, j < t → eigs.getD j 0 = (done.getD j (0, default)).1)
    (hv : ∀ j, j < t → vecs.getD j default = (done.getD j (0, default)).2)
    (v : T) : deflateSeq ops eigs vecs t v = pmSpecDeflate ops done v := by
  unfold deflateSeq pmSpecDeflate
  rw [← hlen, ← foldl_range_getD (0, default) done
    (fun v p => ops.add v (ops.smul (cmul (-p.1, 0) (ops.braket p.2 v)) p.2)) v]
  apply List.foldl_ext
  intro acc j hj
  rw [List.mem_range, hlen] at hj
  rw [he j hj, hv j hj]

/-- The source's inner iteration agrees with the spec-side iteration. -/
theorem pmInner_eq_spec [Inhabited T] (ops : TensorOps T) (A : BigMatrix T)
    (errgoal : ℚ) (eigs : List ℚ) (vecs : List T) (done : List (ℚ × T)) (t : Nat)
    (hlen : done.length = t)
    (he : ∀ j, j < t → eigs.getD j 0 = (done.getD j (0, default)).1)
    (hv : ∀ j, j < t → vecs.getD j default = (done.getD j (0, default)).2) :
    ∀ fuel v lam, pmInner ops A errgoal eigs vecs t fuel v lam
      = pmSpecIter ops A errgoal done fuel v lam := by
  intro fuel
  induction fuel with
  | zero => intro v lam; rfl
  | succ fuel ih =>
    intro v lam
    simp only [pmInner, pmSpecIter]
    rw [deflateSeq_eq_spec ops eigs vecs done t hlen he hv]
    rw [ih]

/-- Invariant of the outer fold of `powerMethod`: after processing the
first `t` targets, the eigenvalue slots hold the converged values for the
processed prefix followed by the `1000` placeholders, and the vector slots
hold the converged vectors followed by the untouched remaining guesses. -/
theorem powerMethod_fold_spec [Inhabited T] (ops : TensorOps T) (A : BigMatrix T)
    (e : ℚ) (vecs0 : List T) :
    ∀ t, t ≤ vecs0.length →
      (List.range t).foldl
        (fun st t =>
          let eigs := st.1
          let vecs := st.2
          let v0 := vecs.getD t default
          let v0 := ops.smul (1 / ops.norm v0, 0) v0
          let r := pmInner ops A e eigs vecs t 1000 v0 (eigs.getD t 0)
          (eigs.set t r.1, vecs.set t r.2))
        (List.replicate vecs0.length 1000, vecs0)
      = ((pmSpecList ops A e (vecs0.take t)).map Prod.fst
            ++ List.replicate (vecs0.length - t) 1000,
         (pmSpecList ops A e (vecs0.take t)).map Prod.snd ++ vecs0.drop t) := by
  intro t
  induction t with
  | zero =>
    intro _
    simp [pmSpecList]
  | succ t ih =>
    intro hle
    have hlt : t < vecs0.length := by omega
    rw [List.range_succ, List.foldl_append, ih (by omega), List.foldl_cons, List.foldl_nil]
    set done := pmSpecList ops A e (vecs0.take t) with hdone
    have hdlen : done.length = t := by
      rw [hdone, pmSpecList_length, List.length_take]
      omega
    have hlen1 : (done.map Prod.fst).length = t := by
      rw [List.length_map, hdlen]
    have hlen2 : (done.map Prod.snd).length = t := by
      rw [List.length_map, hdlen]
    have hrep : vecs0.length - t = (vecs0.length - (t + 1)) + 1 := by omega
    dsimp only
    -- evaluate the getD reads at index t
    have hv0 : (done.map Prod.snd ++ vecs0.drop t).getD t default = vecs0.getD t default := by
      rw [getD_append_at _ _ t default hlen2,
        drop_eq_getD_cons vecs0 t default hlt, List.getD_cons_zero]
    have he0 : (done.map Prod.fst ++ List.replicate (vecs0.length - t) 1000).getD t 0
        = (1000 : ℚ) := by
      rw [getD_append_at _ _ t 0 hlen1, hrep]
      rfl
    rw [hv0, he0]
    -- the inner iteration refines the spec-side one
    have hinner : ∀ v lam,
        pmInner ops A e (done.map Prod.fst ++ List.replicate (vecs0.length - t) 1000)
          (done.map Prod.snd ++ vecs0.drop t) t 1000 v lam
        = pmSpecIter ops A e done 1000 v lam := by
      intro v lam
      apply pmInner_eq_spec ops A e _ _ done t hdlen
      · intro j hj
        rw [getD_append_left _ _ j 0 (by rw [hlen1]; exact hj),
          getD_map done Prod.fst j (0, default) 0 (by rw [hdlen]; exact hj)]
      · intro j hj
        rw [getD_append_left _ _ j default (by rw [hlen2]; exact hj),
          getD_map done Prod.snd j (0, default) default (by rw [hdlen]; exact hj)]
    rw [hinner]
    -- the spec-side list grows by exactly this pair
    have htake : vecs0.take (t + 1) = vecs0.take t ++ [vecs0.getD t default] :=
      take_succ_getD vecs0 t default hlt
    have hgrow : pmSpecList ops A e (vecs0.take (t + 1))
        = done ++ [pmSpecIter ops A e done 1000
            (ops.smul (1 / ops.norm (vecs0.getD t default), 0) (vecs0.getD t default)) 1000] := by
      rw [htake, hdone]
      unfold pmSpecList
      rw [List.foldl_append, List.foldl_cons, List.foldl_nil]
    rw [hgrow]
    -- fold the set-writes back into the append shape
    rw [set_append_at _ _ t _ hlen1, set_append_at _ _ t _ hlen2, hrep,
      drop_eq_getD_cons vecs0 t default hlt]
    simp [List.map_append, List.replicate_succ]

/-- C8: **corrected.** `powerMethod` does deflate each target against the
previously converged eigenpairs with at most 1000 inner iterations per
target, stopping early when `|λ − λ_prev| < ErrGoal`, and returns one `λ`
per input vector in target order — but the deflation is *sequential*:
the loop `for j < t do v += (−λⱼ)·vecsⱼ·⟨vecsⱼ|v⟩` takes each inner
product against the current, partially deflated `v`, not the claim's
simultaneous formula `v − Σⱼ<t λⱼ·vecsⱼ·⟨vecsⱼ|v⟩` in which every
`⟨vecsⱼ|v⟩` uses the same incoming `v`. The run equals the spec-side
sequential description `pmSpecList`. -/
theorem C8_power_method_sequential [Inhabited T] (ops : TensorOps T) (A : BigMatrix T)
    (vecs0 : List T) (opts : DavOpts) :
    powerMethod ops A vecs0 opts
      = ((pmSpecList ops A opts.errGoal vecs0).map Prod.fst,
         (pmSpecList ops A opts.errGoal vecs0).map Prod.snd) := by
  have h := powerMethod_fold_spec ops A opts.errGoal vecs0 vecs0.length (le_refl _)
  rw [List.take_length, List.drop_length, Nat.sub_self] at h
  exact h.trans (by simp)

/-- One unfolding of `pmInner` in the converged case, for concrete runs. -/
theorem pmInner_stop [Inhabited T] (ops : TensorOps T) (A : BigMatrix T) (errgoal : ℚ)
    (eigs : List ℚ) (vecs : List T) (t fuel : Nat) (v : T) (lam : ℚ)
    (h : |ops.norm (deflateSeq ops eigs vecs t (A.product v)) - lam| < errgoal) :
    pmInner ops A errgoal eigs vecs t (fuel + 1) v lam
      = (ops.norm (deflateSeq ops eigs vecs t (A.product v)),
         ops.smul (1 / ops.norm (deflateSeq ops eigs vecs t (A.product v)), 0)
           (deflateSeq ops eigs vecs t (A.product v))) := by
  simp only [pmInner]
  rw [if_pos h]

/-- One unfolding of `pmInnerClaim` in the converged case. -/
theorem pmInnerClaim_stop [Inhabited T] (ops : TensorOps T) (A : BigMatrix T) (errgoal : ℚ)
    (eigs : List ℚ) (vecs : List T) (t fuel : Nat) (v : T) (lam : ℚ)
    (h : |ops.norm (deflateSum ops eigs vecs t (A.product v)) - lam| < errgoal) :
    pmInnerClaim ops A errgoal eigs vecs t (fuel + 1) v lam
      = (ops.norm (deflateSum ops eigs vecs t (A.product v)),
         ops.smul (1 / ops.norm (deflateSum ops eigs vecs t (A.product v)), 0)
           (deflateSum ops eigs vecs t (A.product v))) := by
  simp only [pmInnerClaim]
  rw [if_pos h]

/-- The linear operator with columns `c0, c1` on 2-vectors. -/
def colOp2 (c0 c1 : List CQ) : BigMatrix (List CQ) where
  product v := vops.add (vops.smul (v.getD 0 (0, 0)) c0) (vops.smul (v.getD 1 (0, 0)) c1)
  size := 2
  diag := none

/-- Rank-one-like 2×2 operator with columns `(3,4)` and `(−3,−4)`. -/
def pmA2 : BigMatrix (List CQ) := colOp2 (rvec [3, 4]) (rvec [-3, -4])

/-- Three guesses: `e0`, `e1`, and `e0` again. -/
def pmGuess2 : List (List CQ) := [rvec [1, 0], rvec [0, 1], rvec [1, 0]]

/-- Loose error goal: every target converges after one inner iteration. -/
def pmOpts2 : DavOpts := { errGoal := 1000000 }

set_option maxRecDepth 8000 in
/-- Counterexample to C8's Σ-formula: on the operator with columns `(3,4)`
and `(−3,−4)` and guesses `e0, e1, e0` with a loose `ErrGoal`, the code's
sequential deflation yields eigenvalues `[5, 20, 380]` (third target:
`w₂ = (228, 304)`), while the claim's simultaneous deflation
`v − Σⱼ λⱼ·vecsⱼ·⟨vecsⱼ|v⟩` yields `[5, 20, 120]` (`w₂′ = (−72, −96)`). -/
theorem C8_power_method_counterexample :
    (powerMethod vops pmA2 pmGuess2 pmOpts2).1 = [5, 20, 380]
    ∧ (powerMethodClaim vops pmA2 pmGuess2 pmOpts2).1 = [5, 20, 120]
    ∧ (powerMethod vops pmA2 pmGuess2 pmOpts2).1
        ≠ (powerMethodClaim vops pmA2 pmGuess2 pmOpts2).1 := by
  have h1 : (powerMethod vops pmA2 pmGuess2 pmOpts2).1 = [5, 20, 380] := by
    norm_num [powerMethod, pmGuess2, pmOpts2, pmA2, colOp2, rvec, vops,
      List.range_succ, pmInner_stop, deflateSeq, cadd, cmul, cconj, cnormSq,
      List.replicate, List.set,
      ratSqrt_one, ratSqrt_25, ratSqrt_400, ratSqrt_144400]
  have h2 : (powerMethodClaim vops pmA2 pmGuess2 pmOpts2).1 = [5, 20, 120] := by
    norm_num [powerMethodClaim, pmGuess2, pmOpts2, pmA2, colOp2, rvec, vops,
      List.range_succ, pmInnerClaim_stop, deflateSum, cadd, cmul, cconj, cnormSq,
      List.replicate, List.set,
      ratSqrt_one, ratSqrt_25, ratSqrt_400, ratSqrt_14400]
  refine ⟨h1, h2, ?_⟩
  rw [h1, h2]
  norm_num

end Eigensolver
